import Mathlib

/-!
Verification development for the petridish render engine
(`src/render.rs`).  The Rust code is shallowly embedded: template
strings become lists of pieces (literal text / variable reference),
the tera substitution capability becomes a lookup-based substitution
that fails on an undefined variable, the destination filesystem
becomes an association list from segment paths to entries, and
`Render::render` becomes the three-phase function `renderExec`
(plan building with eager symlink creation, conflict check, dump).
A Rust `.unwrap()` panic is modelled by the `Outcome.panicked`
result (for `render`) or by `Option.none` (for `Render::new` and
the filesystem primitives).
-/

namespace Petridish

/-- A piece of template text: either literal text or a `\x7b\x7b name \x7d\x7d`
variable reference.  This models the tera template strings the render
engine feeds to `tera.render_str`. -/
inductive Piece where
  | lit (s : String)
  | var (name : String)
deriving DecidableEq, Repr

/-- A template string is a sequence of pieces. -/
abbrev TStr := List Piece

/-- The substitution context (`tera::Context`): a finite mapping from
variable name to string value. -/
abbrev Ctx := List (String × String)

/-- First-match lookup in a context. -/
def ctxLookup (ctx : Ctx) (n : String) : Option String :=
  match ctx with
  | [] => none
  | (k, v) :: rest => if k = n then some v else ctxLookup rest n

/-- Substitute one piece: literal text is kept, a variable reference is
resolved in the context and fails (an undefined-variable templating
error) when absent. -/
def Piece.subst (ctx : Ctx) : Piece → Option String
  | .lit s => some s
  | .var n => ctxLookup ctx n

/-- The raw source text of a piece, as it sits on disk before any
substitution. -/
def Piece.raw : Piece → String
  | .lit s => s
  | .var n => "\x7b\x7b " ++ n ++ " \x7d\x7d"

/-- Substitute a whole template string (`tera.render_str`): all pieces
must resolve, the results are concatenated. -/
def substTStr (ctx : Ctx) : TStr → Option String
  | [] => some ""
  | p :: rest =>
    match p.subst ctx, substTStr ctx rest with
    | some s, some t => some (s ++ t)
    | _, _ => none

/-- The raw source text of a template string. -/
def rawTStr (t : TStr) : String :=
  String.join (t.map Piece.raw)

/-- A destination path, as a list of path segments relative to the
output directory. -/
abbrev FPath := List String

/-- A relative template path: one template string per segment.
Substituting it segment-wise is the model of rendering the whole
relative-path string in one `render_str` call. -/
def substPath (ctx : Ctx) : List TStr → Option FPath
  | [] => some []
  | s :: rest =>
    match substTStr ctx s, substPath ctx rest with
    | some x, some xs => some (x :: xs)
    | _, _ => none

/-- A filesystem entry at a destination path. -/
inductive Entry where
  | file (content : String)
  | link (target : String)
  | dir
deriving DecidableEq, Repr

/-- The destination filesystem: an association list from path to entry.
The root (the output directory itself) is implicit and always exists. -/
abbrev FS := List (FPath × Entry)

/-- Lookup of a path in the filesystem. -/
def lookupFS (fs : FS) (p : FPath) : Option Entry :=
  match fs with
  | [] => none
  | (q, e) :: rest => if q = p then some e else lookupFS rest p

/-- Insert the entry at a path (an earlier binding shadows a later
one, so this replaces any previous entry for lookup purposes). -/
def insertFS (fs : FS) (p : FPath) (e : Entry) : FS :=
  (p, e) :: fs

/-- Split a symlink target string into path segments at `/`. -/
def splitSegsAux : List Char → List Char → List String
  | [], acc => [String.mk acc.reverse]
  | c :: rest, acc =>
    if c = '/' then String.mk acc.reverse :: splitSegsAux rest []
    else splitSegsAux rest (c :: acc)

/-- Interpretation of a symlink target string as a destination path: a
relative target is resolved against the directory containing the link
(Unix semantics).  Dot segments and absolute targets are not modelled
specially — they become path keys that are simply absent from the
destination map. -/
def targetToPath (parent : FPath) (target : String) : FPath :=
  parent ++ splitSegsAux target.toList []

/-- Follow a chain of symlinks at the final path component, with fuel
bounding the chain length (running out of fuel models `ELOOP`).
Returns the first path whose entry is not a symlink.  Symlinks in
intermediate path components are outside this model (the render engine
itself only ever creates plain directories as parents). -/
def chaseLink (fs : FS) : Nat → FPath → Option FPath
  | 0, _ => none
  | fuel + 1, p =>
    match lookupFS fs p with
    | some (.link t) => chaseLink fs fuel (targetToPath p.dropLast t)
    | _ => some p

/-- Resolve the final component of a path through symlinks. -/
def resolvePath (fs : FS) (p : FPath) : Option FPath :=
  chaseLink fs (fs.length + 1) p

/-- `Path::exists`: resolves symlinks (`stat` semantics), so a dangling
symlink does not exist; the root always exists. -/
def existsFS (fs : FS) (p : FPath) : Bool :=
  match resolvePath fs p with
  | none => false
  | some q => q = [] || (lookupFS fs q).isSome

/-- Whether a path is a directory (the root is). -/
def isDirFS (fs : FS) (p : FPath) : Bool :=
  p = [] || lookupFS fs p = some .dir

/-- Make a single directory: succeeds (as a no-op) when a directory is
already there, fails when a file or symlink is in the way. -/
def mkdirSeg (fs : FS) (p : FPath) : Option FS :=
  match lookupFS fs p with
  | some .dir => some fs
  | some _ => none
  | none => some (insertFS fs p .dir)

/-- The non-empty prefixes of a path, shortest first. -/
def pathPrefixes (p : FPath) : List FPath :=
  (List.range p.length).map (fun i => p.take (i + 1))

/-- `fs::create_dir_all`: make every prefix of the path a directory;
fails (a panic through `.unwrap()` in the Rust code) when a file or
symlink blocks the chain. -/
def createDirAll (fs : FS) (p : FPath) : Option FS :=
  (pathPrefixes p).foldlM mkdirSeg fs

/-- The parent-directory step shared by the symlink branch and the
dump loop of `render.rs`: `if !parent.exists() \x7b create_dir_all(parent) \x7d`.
When the parent path exists (even as a regular file) nothing is done;
otherwise the whole chain is created. -/
def ensureParent (fs : FS) (p : FPath) : Option FS :=
  if existsFS fs p.dropLast then some fs else createDirAll fs p.dropLast

/-- The `symlink` helper of `render.rs`: the `symlink(2)` call does not
follow the final component, so it fails (`EEXIST`, an `.unwrap()`
panic) when any entry — even a dangling symlink — already sits at the
destination, and also when the parent is not a directory. -/
def symlinkFS (fs : FS) (target : String) (p : FPath) : Option FS :=
  if p = [] || (lookupFS fs p).isSome then none
  else if isDirFS fs p.dropLast then some (insertFS fs p (.link target))
  else none

/-- `fs::write`: follows a symlink at the final component (the write
lands on the resolved target and the symlink itself is left in place);
fails (an `.unwrap()` panic) on a symlink loop, when the resolved
destination is a directory, or when its parent is not a directory. -/
def writeFS (fs : FS) (p : FPath) (c : String) : Option FS :=
  match resolvePath fs p with
  | none => none
  | some q =>
    if isDirFS fs q then none
    else if isDirFS fs q.dropLast then some (insertFS fs q (.file c))
    else none

/-- One entry of the template walk (`WalkDir` over
`template_path/entry_dir_name`, files and symlinks only, in traversal
order).  `rel` is the entry's path relative to `template_path`, so its
first segment is the entry directory name. -/
inductive TEntry where
  | file (rel : List TStr) (content : TStr)
  | link (rel : List TStr) (target : String)
deriving DecidableEq, Repr

/-- The `Render` struct of `render.rs` (paths are kept relative to the
output directory, so `template_path` and `output_path` do not appear;
`exclude_render_paths` already holds the patterns rendered by
`Render::new`). -/
structure Render where
  entry_dir_name : TStr
  context : Ctx
  overwrite_if_exists : Bool
  skip_if_exists : Bool
  exclude_render_paths : List FPath
deriving DecidableEq, Repr

/-- `Render::new`: each exclusion pattern is prefixed with the entry
directory name and rendered against the context, and the result is
`.unwrap()`ed — a failing pattern panics, modelled as `none`. -/
def Render.new (entryDirName : TStr) (context : Ctx)
    (overwrite skip : Bool) (excludePats : List (List TStr)) :
    Option Render :=
  match excludePats.mapM (fun pat => substPath context (entryDirName :: pat)) with
  | some rendered => some ⟨entryDirName, context, overwrite, skip, rendered⟩
  | none => none

/-- The result of a `render()` call.  `templatingError` and `conflict`
are the typed error returns (`Error::RenderError`,
`Error::CannotOverwriteContent`); `panicked` models a Rust panic from
one of the `.unwrap()` calls. -/
inductive Outcome where
  | ok
  | templatingError
  | conflict (p : FPath)
  | panicked
deriving DecidableEq, Repr

/-- The in-memory render plan (the `file_contents` HashMap):
destination path to final content, in insertion order. -/
abbrev Plan := List (FPath × String)

/-- Plan lookup. -/
def lookupPlan (plan : Plan) (p : FPath) : Option String :=
  match plan with
  | [] => none
  | (q, c) :: rest => if q = p then some c else lookupPlan rest p

/-- `HashMap::insert`: replace the binding when the key is present,
append it otherwise. -/
def insertPlan (plan : Plan) (p : FPath) (c : String) : Plan :=
  if plan.any (fun kv => kv.1 = p) then
    plan.map (fun kv => if kv.1 = p then (p, c) else kv)
  else plan ++ [(p, c)]

/-- Phase one of `Render::render` (lines 60–98): walk the template
entries in order; substitute each relative path; create symlinks at
the destination immediately (with their target copied verbatim);
read each regular file and either keep its content verbatim (when its
rendered path is in `exclude_render_paths`) or substitute it; collect
file contents into the plan.  A failed path or content substitution
returns the typed templating error; a failed directory creation or
symlink creation is a panic. -/
def planLoop (r : Render) (entries : List TEntry) (fs : FS) (plan : Plan) :
    Outcome × FS × Plan :=
  match entries with
  | [] => (.ok, fs, plan)
  | .link rel target :: rest =>
    match substPath r.context rel with
    | none => (.templatingError, fs, plan)
    | some p =>
      match ensureParent fs p with
      | none => (.panicked, fs, plan)
      | some fs1 =>
        match symlinkFS fs1 target p with
        | none => (.panicked, fs1, plan)
        | some fs2 => planLoop r rest fs2 plan
  | .file rel content :: rest =>
    match substPath r.context rel with
    | none => (.templatingError, fs, plan)
    | some p =>
      if p ∈ r.exclude_render_paths then
        planLoop r rest fs (insertPlan plan p (rawTStr content))
      else
        match substTStr r.context content with
        | none => (.templatingError, fs, plan)
        | some c => planLoop r rest fs (insertPlan plan p c)

/-- Phase two of `Render::render` (lines 100–107): under the Fail
policy, return the first planned destination path that already
exists. -/
def conflictCheck (fs : FS) : Plan → Option FPath
  | [] => none
  | (p, _) :: rest => if existsFS fs p then some p else conflictCheck fs rest

/-- Phase three of `Render::render` (lines 109–118): for each planned
file, create its parent directory when missing and write it unless it
exists and neither overwrite flag allows writing.  A failed directory
creation or write is a panic; the filesystem reached so far is
returned either way. -/
def dumpLoop (overwrite : Bool) (fs : FS) : Plan → Bool × FS
  | [] => (true, fs)
  | (p, c) :: rest =>
    match ensureParent fs p with
    | none => (false, fs)
    | some fs1 =>
      if !existsFS fs1 p || overwrite then
        match writeFS fs1 p c with
        | none => (false, fs1)
        | some fs2 => dumpLoop overwrite fs2 rest
      else dumpLoop overwrite fs1 rest

/-- The phases after plan building: the Fail-policy conflict check,
then the dump. -/
def afterPlan (r : Render) (fs : FS) (plan : Plan) : Outcome × FS :=
  if !r.overwrite_if_exists && !r.skip_if_exists then
    match conflictCheck fs plan with
    | some p => (.conflict p, fs)
    | none =>
      match dumpLoop r.overwrite_if_exists fs plan with
      | (true, fs2) => (.ok, fs2)
      | (false, fs2) => (.panicked, fs2)
  else
    match dumpLoop r.overwrite_if_exists fs plan with
    | (true, fs2) => (.ok, fs2)
    | (false, fs2) => (.panicked, fs2)

/-- `Render::render`: build the plan (creating symlinks on the way),
then conflict-check and dump.  Returns the outcome together with the
destination filesystem as left behind by the call. -/
def renderExec (r : Render) (entries : List TEntry) (fs0 : FS) : Outcome × FS :=
  match planLoop r entries fs0 [] with
  | (.ok, fs1, plan) => afterPlan r fs1 plan
  | (.templatingError, fs1, _) => (.templatingError, fs1)
  | (.conflict p, fs1, _) => (.conflict p, fs1)
  | (.panicked, fs1, _) => (.panicked, fs1)

/-- One iteration of the walk loop of `Render::render`, with outcome
`ok` meaning "continue with the next entry".  `planLoop` is its
iteration (see `planLoop_cons`). -/
def planStep (r : Render) (en : TEntry) (fs : FS) (plan : Plan) :
    Outcome × FS × Plan :=
  match en with
  | .link rel target =>
    match substPath r.context rel with
    | none => (.templatingError, fs, plan)
    | some p =>
      match ensureParent fs p with
      | none => (.panicked, fs, plan)
      | some fs1 =>
        match symlinkFS fs1 target p with
        | none => (.panicked, fs1, plan)
        | some fs2 => (.ok, fs2, plan)
  | .file rel content =>
    match substPath r.context rel with
    | none => (.templatingError, fs, plan)
    | some p =>
      if p ∈ r.exclude_render_paths then
        (.ok, fs, insertPlan plan p (rawTStr content))
      else
        match substTStr r.context content with
        | none => (.templatingError, fs, plan)
        | some c => (.ok, fs, insertPlan plan p c)

/-- `Render::render` with the iteration order of the `file_contents`
HashMap made explicit: Rust's HashMap iterates in a randomized,
per-instance order (render.rs lines 102 and 110), modelled here by a
reordering applied to the built plan before the conflict check and the
dump.  `renderExec` is the insertion-order instance (`reorder = id`). -/
def renderExecOrd (r : Render) (entries : List TEntry) (fs0 : FS)
    (reorder : Plan → Plan) : Outcome × FS :=
  match planLoop r entries fs0 [] with
  | (.ok, fs1, plan) => afterPlan r fs1 (reorder plan)
  | (.templatingError, fs1, _) => (.templatingError, fs1)
  | (.conflict p, fs1, _) => (.conflict p, fs1)
  | (.panicked, fs1, _) => (.panicked, fs1)

/-- A destination filesystem containing no symlink entries. -/
def noLinksFS (fs : FS) : Bool :=
  fs.all (fun kv =>
    match kv.2 with
    | .link _ => false
    | _ => true)

/-- A template tree containing no symlink entries. -/
def noLinks (entries : List TEntry) : Bool :=
  entries.all (fun e =>
    match e with
    | .file _ _ => true
    | .link _ _ => false)

/-- The destination path an entry renders to, when its relative path
substitutes successfully. -/
def entryDest (r : Render) : TEntry → Option FPath
  | .file rel _ => substPath r.context rel
  | .link rel _ => substPath r.context rel

/-- Whether processing an entry raises a templating error: its relative
path fails to substitute, or it is a regular file whose rendered path
is not excluded and whose content fails to substitute. -/
def entryFails (r : Render) : TEntry → Bool
  | .link rel _ => (substPath r.context rel).isNone
  | .file rel content =>
    match substPath r.context rel with
    | none => true
    | some p =>
      if p ∈ r.exclude_render_paths then false
      else (substTStr r.context content).isNone

/-! ## Basic lemmas about the filesystem primitives -/

@[simp]
theorem lookupFS_insertFS_self (fs : FS) (p : FPath) (e : Entry) :
    lookupFS (insertFS fs p e) p = some e := by
  simp [insertFS, lookupFS]

theorem lookupFS_insertFS_ne (fs : FS) (p q : FPath) (e : Entry) (h : q ≠ p) :
    lookupFS (insertFS fs p e) q = lookupFS fs q := by
  show (if p = q then some e else lookupFS fs q) = lookupFS fs q
  rw [if_neg (fun hc : p = q => h hc.symm)]

/-! ## Symlink-resolution lemmas -/

theorem chaseLink_nonlink (fs : FS) : ∀ (fuel : Nat) (p q : FPath),
    chaseLink fs fuel p = some q → ∀ t, lookupFS fs q ≠ some (.link t) := by
  intro fuel
  induction fuel with
  | zero => intro p q h; simp [chaseLink] at h
  | succ n ih =>
    intro p q h t
    simp only [chaseLink] at h
    cases hl : lookupFS fs p with
    | none => rw [hl] at h; cases h; rw [hl]; simp
    | some e =>
      cases e with
      | link t2 => rw [hl] at h; exact ih _ q h t
      | file c => rw [hl] at h; cases h; rw [hl]; simp
      | dir => rw [hl] at h; cases h; rw [hl]; simp

theorem chaseLink_stop (fs : FS) (fuel : Nat) (p : FPath)
    (h : ∀ t, lookupFS fs p ≠ some (.link t)) :
    chaseLink fs (fuel + 1) p = some p := by
  show (match lookupFS fs p with
        | some (.link t) => chaseLink fs fuel (targetToPath p.dropLast t)
        | _ => some p) = some p
  cases hl : lookupFS fs p with
  | none => rfl
  | some e =>
    cases e with
    | link t => exact absurd hl (h t)
    | file c => rfl
    | dir => rfl

theorem resolvePath_nonlink (fs : FS) (p q : FPath)
    (h : resolvePath fs p = some q) : ∀ t, lookupFS fs q ≠ some (.link t) :=
  chaseLink_nonlink fs _ p q h

theorem resolvePath_of_nonlink (fs : FS) (p : FPath)
    (h : ∀ t, lookupFS fs p ≠ some (.link t)) : resolvePath fs p = some p :=
  chaseLink_stop fs fs.length p h

theorem noLinksFS_lookup (fs : FS) : noLinksFS fs = true →
    ∀ (p : FPath) (t : String), lookupFS fs p ≠ some (.link t) := by
  induction fs with
  | nil => intro h p t; simp [lookupFS]
  | cons kv rest ih =>
    intro h p t hc
    obtain ⟨q, e⟩ := kv
    rw [noLinksFS, List.all_cons, Bool.and_eq_true] at h
    obtain ⟨h1, h2⟩ := h
    unfold lookupFS at hc
    by_cases hq : q = p
    · rw [if_pos hq] at hc
      have he : e = .link t := by injection hc
      subst he
      simp at h1
    · rw [if_neg hq] at hc
      exact ih h2 p t hc

theorem noLinksFS_insertFS (fs : FS) (q : FPath) (e : Entry)
    (hfs : noLinksFS fs = true)
    (he : ∀ t, e ≠ .link t) : noLinksFS (insertFS fs q e) = true := by
  rw [insertFS, noLinksFS, List.all_cons, Bool.and_eq_true]
  refine ⟨?_, hfs⟩
  cases e with
  | link t => exact absurd rfl (he t)
  | file c => rfl
  | dir => rfl

theorem resolvePath_no_links (fs : FS) (h : noLinksFS fs = true) (p : FPath) :
    resolvePath fs p = some p :=
  chaseLink_stop fs fs.length p (noLinksFS_lookup fs h p)

theorem existsFS_no_links (fs : FS) (h : noLinksFS fs = true) (p : FPath) :
    existsFS fs p = true ↔ (p = [] ∨ (lookupFS fs p).isSome = true) := by
  unfold existsFS
  rw [resolvePath_no_links fs h p]
  simp

theorem writeFS_no_links (fs : FS) (h : noLinksFS fs = true) (p : FPath) (c : String) :
    writeFS fs p c =
      (if isDirFS fs p = true then none
       else if isDirFS fs p.dropLast = true then some (insertFS fs p (.file c))
       else none) := by
  unfold writeFS
  rw [resolvePath_no_links fs h p]

/-! ## Lemmas about the filesystem primitives -/

theorem mkdirSeg_keeps (fs fs1 : FS) (q p : FPath) (e : Entry)
    (hp : lookupFS fs p = some e)
    (h : mkdirSeg fs q = some fs1) : lookupFS fs1 p = some e := by
  unfold mkdirSeg at h
  by_cases hqp : q = p
  · subst hqp
    rw [hp] at h
    cases e with
    | dir =>
      have : fs1 = fs := by simpa using h.symm
      subst this; exact hp
    | file c => exact absurd h (by simp)
    | link t => exact absurd h (by simp)
  · cases hl : lookupFS fs q with
    | none =>
      rw [hl] at h
      have : fs1 = insertFS fs q .dir := by
        simpa using h.symm
      subst this
      rw [lookupFS_insertFS_ne fs q p .dir (fun hc => hqp hc.symm)]
      exact hp
    | some ent =>
      rw [hl] at h
      cases ent with
      | dir =>
        have : fs1 = fs := by simpa using h.symm
        subst this; exact hp
      | file c => exact absurd h (by simp)
      | link t => exact absurd h (by simp)

theorem mkdirSeg_no_links (fs fs1 : FS) (q : FPath)
    (hfs : noLinksFS fs = true)
    (h : mkdirSeg fs q = some fs1) : noLinksFS fs1 = true := by
  unfold mkdirSeg at h
  cases hl : lookupFS fs q with
  | none =>
    rw [hl] at h
    have : fs1 = insertFS fs q .dir := by simpa using h.symm
    subst this
    exact noLinksFS_insertFS fs q .dir hfs (by simp)
  | some ent =>
    rw [hl] at h
    cases ent with
    | dir =>
      have : fs1 = fs := by simpa using h.symm
      subst this; exact hfs
    | file c => exact absurd h (by simp)
    | link t => exact absurd h (by simp)

theorem foldlM_mkdirSeg_keeps (l : List FPath) (fs fs1 : FS)
    (p : FPath) (e : Entry)
    (hp : lookupFS fs p = some e)
    (h : List.foldlM mkdirSeg fs l = some fs1) : lookupFS fs1 p = some e := by
  induction l generalizing fs with
  | nil => simp [List.foldlM] at h; rw [← h]; exact hp
  | cons q rest ih =>
    rw [List.foldlM_cons] at h
    cases hm : mkdirSeg fs q with
    | none => rw [hm] at h; exact absurd h (by simp)
    | some fsm =>
      rw [hm] at h
      simp only [Option.bind_eq_bind, Option.some_bind] at h
      exact ih fsm (mkdirSeg_keeps fs fsm q p e hp hm) h

theorem foldlM_mkdirSeg_no_links (l : List FPath) (fs fs1 : FS)
    (hfs : noLinksFS fs = true)
    (h : List.foldlM mkdirSeg fs l = some fs1) : noLinksFS fs1 = true := by
  induction l generalizing fs with
  | nil => simp [List.foldlM] at h; rw [← h]; exact hfs
  | cons q rest ih =>
    rw [List.foldlM_cons] at h
    cases hm : mkdirSeg fs q with
    | none => rw [hm] at h; exact absurd h (by simp)
    | some fsm =>
      rw [hm] at h
      simp only [Option.bind_eq_bind, Option.some_bind] at h
      exact ih fsm (mkdirSeg_no_links fs fsm q hfs hm) h

theorem createDirAll_keeps (fs fs1 : FS) (q p : FPath) (e : Entry)
    (hp : lookupFS fs p = some e)
    (h : createDirAll fs q = some fs1) : lookupFS fs1 p = some e :=
  foldlM_mkdirSeg_keeps (pathPrefixes q) fs fs1 p e hp h

theorem createDirAll_no_links (fs fs1 : FS) (q : FPath)
    (hfs : noLinksFS fs = true)
    (h : createDirAll fs q = some fs1) : noLinksFS fs1 = true :=
  foldlM_mkdirSeg_no_links (pathPrefixes q) fs fs1 hfs h

theorem ensureParent_keeps (fs fs1 : FS) (q p : FPath) (e : Entry)
    (hp : lookupFS fs p = some e)
    (h : ensureParent fs q = some fs1) : lookupFS fs1 p = some e := by
  unfold ensureParent at h
  by_cases hex : existsFS fs q.dropLast = true
  · rw [if_pos hex] at h
    have : fs1 = fs := by simpa using h.symm
    subst this; exact hp
  · rw [if_neg hex] at h
    exact createDirAll_keeps fs fs1 q.dropLast p e hp h

theorem ensureParent_no_links (fs fs1 : FS) (q : FPath)
    (hfs : noLinksFS fs = true)
    (h : ensureParent fs q = some fs1) : noLinksFS fs1 = true := by
  unfold ensureParent at h
  by_cases hex : existsFS fs q.dropLast = true
  · rw [if_pos hex] at h
    have : fs1 = fs := by simpa using h.symm
    subst this; exact hfs
  · rw [if_neg hex] at h
    exact createDirAll_no_links fs fs1 q.dropLast hfs h

theorem symlinkFS_eq (fs fs1 : FS) (t : String) (q : FPath)
    (h : symlinkFS fs t q = some fs1) :
    fs1 = insertFS fs q (.link t) ∧ lookupFS fs q = none := by
  unfold symlinkFS at h
  by_cases hex : (q = [] ∨ (lookupFS fs q).isSome = true)
  · rw [if_pos (by simpa using hex)] at h
    exact absurd h (by simp)
  · rw [if_neg (by simpa using hex)] at h
    push_neg at hex
    have hnone : lookupFS fs q = none := by
      have h2 := hex.2
      cases hl : lookupFS fs q with
      | none => rfl
      | some e => rw [hl] at h2; simp at h2
    refine ⟨?_, hnone⟩
    by_cases hd : isDirFS fs q.dropLast = true
    · rw [if_pos hd] at h; simpa using h.symm
    · rw [if_neg hd] at h; exact absurd h (by simp)

theorem symlinkFS_none_of_lookup (fs : FS) (t : String) (q : FPath) (e : Entry)
    (hq : lookupFS fs q = some e) : symlinkFS fs t q = none := by
  unfold symlinkFS
  rw [if_pos (by rw [hq]; simp)]

theorem symlinkFS_keeps (fs fs1 : FS) (t : String) (q p : FPath) (e : Entry)
    (hp : lookupFS fs p = some e)
    (h : symlinkFS fs t q = some fs1) : lookupFS fs1 p = some e := by
  obtain ⟨rfl, hnone⟩ := symlinkFS_eq fs fs1 t q h
  have hqp : p ≠ q := by
    intro hc; subst hc
    rw [hp] at hnone; exact absurd hnone (by simp)
  rw [lookupFS_insertFS_ne fs q p (.link t) hqp]
  exact hp

theorem writeFS_eq (fs fs1 : FS) (c : String) (q : FPath)
    (h : writeFS fs q c = some fs1) :
    ∃ rq, resolvePath fs q = some rq ∧ fs1 = insertFS fs rq (.file c)
      ∧ isDirFS fs rq = false ∧ isDirFS fs rq.dropLast = true := by
  unfold writeFS at h
  split at h
  · exact absurd h (by simp)
  · rename_i rq hres
    split at h
    · exact absurd h (by simp)
    · rename_i hd
      split at h
      · rename_i hpar
        exact ⟨rq, hres, by simpa using h.symm, by simpa using hd, hpar⟩
      · exact absurd h (by simp)

theorem writeFS_keeps_link (fs fs1 : FS) (c : String) (q p : FPath) (t : String)
    (hp : lookupFS fs p = some (.link t))
    (h : writeFS fs q c = some fs1) : lookupFS fs1 p = some (.link t) := by
  obtain ⟨rq, hres, rfl, -, -⟩ := writeFS_eq fs fs1 c q h
  have hne : p ≠ rq := by
    intro hc; subst hc
    exact resolvePath_nonlink fs q p hres t hp
  rw [lookupFS_insertFS_ne fs rq p (.file c) hne]
  exact hp

theorem writeFS_no_links_keeps (fs fs1 : FS) (c : String) (q p : FPath) (e : Entry)
    (hfs : noLinksFS fs = true)
    (hp : lookupFS fs p = some e) (hne : p ≠ q)
    (h : writeFS fs q c = some fs1) :
    lookupFS fs1 p = some e ∧ noLinksFS fs1 = true := by
  obtain ⟨rq, hres, rfl, -, -⟩ := writeFS_eq fs fs1 c q h
  rw [resolvePath_no_links fs hfs q] at hres
  cases hres
  exact ⟨by rw [lookupFS_insertFS_ne fs q p (.file c) hne]; exact hp,
    noLinksFS_insertFS fs q (.file c) hfs (by simp)⟩

/-! ## Lemmas about the plan map -/

theorem planKeys_any (plan : Plan) (p : FPath) :
    (plan.any (fun kv => kv.1 = p)) = true ↔ p ∈ plan.map Prod.fst := by
  simp [List.any_eq_true, List.mem_map]

theorem keys_insertPlan (plan : Plan) (p : FPath) (c : String) :
    (insertPlan plan p c).map Prod.fst =
      (if p ∈ plan.map Prod.fst then plan.map Prod.fst
       else plan.map Prod.fst ++ [p]) := by
  unfold insertPlan
  by_cases hmem : p ∈ plan.map Prod.fst
  · rw [if_pos ((planKeys_any plan p).mpr hmem), if_pos hmem]
    rw [List.map_map]
    refine List.map_congr_left ?_
    intro kv _
    by_cases hkv : kv.1 = p
    · simp [hkv]
    · simp [hkv]
  · rw [if_neg (fun hc => hmem ((planKeys_any plan p).mp hc)), if_neg hmem]
    simp

theorem lookupPlan_none_iff (plan : Plan) (p : FPath) :
    lookupPlan plan p = none ↔ p ∉ plan.map Prod.fst := by
  induction plan with
  | nil => simp [lookupPlan]
  | cons kv rest ih =>
    obtain ⟨q, c⟩ := kv
    by_cases hq : q = p
    · subst hq; simp [lookupPlan]
    · rw [show lookupPlan ((q, c) :: rest) p = lookupPlan rest p from if_neg hq]
      simp only [List.map_cons, List.mem_cons]
      rw [ih]
      constructor
      · intro h hc
        rcases hc with hc | hc
        · exact hq hc.symm
        · exact h hc
      · intro h hc
        exact h (Or.inr hc)

theorem lookupPlan_mem (plan : Plan) (p : FPath) (c : String)
    (h : lookupPlan plan p = some c) : (p, c) ∈ plan := by
  induction plan with
  | nil => simp [lookupPlan] at h
  | cons kv rest ih =>
    obtain ⟨q, c0⟩ := kv
    by_cases hq : q = p
    · subst hq
      simp [lookupPlan] at h
      subst h; exact List.mem_cons_self _ _
    · rw [show lookupPlan ((q, c0) :: rest) p
          = lookupPlan rest p from if_neg hq] at h
      exact List.mem_cons_of_mem _ (ih h)

theorem nodup_keys_insertPlan (plan : Plan) (p : FPath) (c : String)
    (h : (plan.map Prod.fst).Nodup) :
    ((insertPlan plan p c).map Prod.fst).Nodup := by
  rw [keys_insertPlan]
  by_cases hmem : p ∈ plan.map Prod.fst
  · rwa [if_pos hmem]
  · rw [if_neg hmem]
    refine List.Nodup.append h (List.nodup_singleton p) ?_
    intro a ha hb
    rw [List.mem_singleton] at hb
    subst hb
    exact hmem ha

/-! ## Lemmas about the walk loop -/

theorem planLoop_cons (r : Render) (en : TEntry) (rest : List TEntry)
    (fs : FS) (plan : Plan) :
    planLoop r (en :: rest) fs plan =
      match planStep r en fs plan with
      | (.ok, fs1, pl1) => planLoop r rest fs1 pl1
      | (o, fs1, pl1) => (o, fs1, pl1) := by
  cases en with
  | link rel target =>
    simp only [planLoop, planStep]
    repeat' split
    all_goals simp_all
  | file rel content =>
    simp only [planLoop, planStep]
    repeat' split
    all_goals simp_all

theorem planLoop_cons_ok (r : Render) (en : TEntry) (rest : List TEntry)
    (fs : FS) (plan : Plan) (fs1 : FS) (pl1 : Plan)
    (h : planStep r en fs plan = (.ok, fs1, pl1)) :
    planLoop r (en :: rest) fs plan = planLoop r rest fs1 pl1 := by
  rw [planLoop_cons, h]

theorem planLoop_cons_fail (r : Render) (en : TEntry) (rest : List TEntry)
    (fs : FS) (plan : Plan) (o : Outcome) (fs1 : FS) (pl1 : Plan)
    (h : planStep r en fs plan = (o, fs1, pl1)) (ho : o ≠ .ok) :
    planLoop r (en :: rest) fs plan = (o, fs1, pl1) := by
  rw [planLoop_cons, h]
  cases o with
  | ok => exact absurd rfl ho
  | templatingError => rfl
  | conflict p => rfl
  | panicked => rfl

theorem planStep_keeps (r : Render) (en : TEntry) (fs : FS) (plan : Plan)
    (p : FPath) (e : Entry) (o : Outcome) (fs1 : FS) (pl1 : Plan)
    (hp : lookupFS fs p = some e)
    (hstep : planStep r en fs plan = (o, fs1, pl1)) :
    lookupFS fs1 p = some e := by
  cases en with
  | link rel target =>
    simp only [planStep] at hstep
    repeat' split at hstep
    all_goals cases hstep
    all_goals first
      | exact hp
      | exact ensureParent_keeps _ _ _ _ _ hp (by assumption)
      | exact symlinkFS_keeps _ _ _ _ _ _
          (ensureParent_keeps _ _ _ _ _ hp (by assumption)) (by assumption)
  | file rel content =>
    simp only [planStep] at hstep
    repeat' split at hstep
    all_goals cases hstep
    all_goals exact hp

theorem planStep_not_conflict (r : Render) (en : TEntry) (fs : FS) (plan : Plan)
    (o : Outcome) (fs1 : FS) (pl1 : Plan) (q : FPath)
    (hstep : planStep r en fs plan = (o, fs1, pl1)) : o ≠ .conflict q := by
  cases en with
  | link rel target =>
    simp only [planStep] at hstep
    repeat' split at hstep
    all_goals (cases hstep; simp)
  | file rel content =>
    simp only [planStep] at hstep
    repeat' split at hstep
    all_goals (cases hstep; simp)

theorem planLoop_keeps (r : Render) (entries : List TEntry) :
    ∀ (fs : FS) (plan : Plan) (p : FPath) (e : Entry),
    lookupFS fs p = some e →
    lookupFS (planLoop r entries fs plan).2.1 p = some e := by
  induction entries with
  | nil =>
    intro fs plan p e hp
    simpa [planLoop] using hp
  | cons en rest ih =>
    intro fs plan p e hp
    rcases hstep : planStep r en fs plan with ⟨o, fs1, pl1⟩
    have hpres := planStep_keeps r en fs plan p e o fs1 pl1 hp hstep
    cases o with
    | ok =>
      rw [planLoop_cons_ok r en rest fs plan fs1 pl1 hstep]
      exact ih fs1 pl1 p e hpres
    | templatingError =>
      rw [planLoop_cons_fail r en rest fs plan _ fs1 pl1 hstep (by simp)]
      exact hpres
    | conflict q =>
      rw [planLoop_cons_fail r en rest fs plan _ fs1 pl1 hstep (by simp)]
      exact hpres
    | panicked =>
      rw [planLoop_cons_fail r en rest fs plan _ fs1 pl1 hstep (by simp)]
      exact hpres

theorem planLoop_append_ok (r : Render) (l1 l2 : List TEntry) :
    ∀ (fs : FS) (plan : Plan) (fs1 : FS) (pl1 : Plan),
    planLoop r l1 fs plan = (.ok, fs1, pl1) →
    planLoop r (l1 ++ l2) fs plan = planLoop r l2 fs1 pl1 := by
  induction l1 with
  | nil =>
    intro fs plan fs1 pl1 h
    simp only [planLoop, Prod.mk.injEq, true_and] at h
    obtain ⟨rfl, rfl⟩ := h
    rfl
  | cons en rest ih =>
    intro fs plan fs1 pl1 h
    rcases hstep : planStep r en fs plan with ⟨o, fs2, pl2⟩
    cases o with
    | ok =>
      rw [planLoop_cons_ok r en rest fs plan fs2 pl2 hstep] at h
      rw [List.cons_append, planLoop_cons_ok r en (rest ++ l2) fs plan fs2 pl2 hstep]
      exact ih fs2 pl2 fs1 pl1 h
    | templatingError =>
      rw [planLoop_cons_fail r en rest fs plan _ fs2 pl2 hstep (by simp)] at h
      simp at h
    | conflict q =>
      rw [planLoop_cons_fail r en rest fs plan _ fs2 pl2 hstep (by simp)] at h
      simp at h
    | panicked =>
      rw [planLoop_cons_fail r en rest fs plan _ fs2 pl2 hstep (by simp)] at h
      simp at h

theorem planLoop_append_fail (r : Render) (l1 l2 : List TEntry) :
    ∀ (fs : FS) (plan : Plan) (o : Outcome) (fs1 : FS) (pl1 : Plan),
    planLoop r l1 fs plan = (o, fs1, pl1) → o ≠ .ok →
    planLoop r (l1 ++ l2) fs plan = (o, fs1, pl1) := by
  induction l1 with
  | nil =>
    intro fs plan o fs1 pl1 h ho
    simp only [planLoop, Prod.mk.injEq] at h
    exact absurd h.1.symm ho
  | cons en rest ih =>
    intro fs plan o fs1 pl1 h ho
    rcases hstep : planStep r en fs plan with ⟨o2, fs2, pl2⟩
    cases o2 with
    | ok =>
      rw [planLoop_cons_ok r en rest fs plan fs2 pl2 hstep] at h
      rw [List.cons_append, planLoop_cons_ok r en (rest ++ l2) fs plan fs2 pl2 hstep]
      exact ih fs2 pl2 o fs1 pl1 h ho
    | templatingError =>
      rw [planLoop_cons_fail r en rest fs plan _ fs2 pl2 hstep (by simp)] at h
      rw [List.cons_append, planLoop_cons_fail r en (rest ++ l2) fs plan _ fs2 pl2 hstep (by simp)]
      exact h
    | conflict q =>
      rw [planLoop_cons_fail r en rest fs plan _ fs2 pl2 hstep (by simp)] at h
      rw [List.cons_append, planLoop_cons_fail r en (rest ++ l2) fs plan _ fs2 pl2 hstep (by simp)]
      exact h
    | panicked =>
      rw [planLoop_cons_fail r en rest fs plan _ fs2 pl2 hstep (by simp)] at h
      rw [List.cons_append, planLoop_cons_fail r en (rest ++ l2) fs plan _ fs2 pl2 hstep (by simp)]
      exact h

theorem planLoop_not_conflict (r : Render) (entries : List TEntry) :
    ∀ (fs : FS) (plan : Plan) (q : FPath),
    (planLoop r entries fs plan).1 ≠ .conflict q := by
  induction entries with
  | nil => intro fs plan q; simp [planLoop]
  | cons en rest ih =>
    intro fs plan q
    rcases hstep : planStep r en fs plan with ⟨o, fs1, pl1⟩
    cases o with
    | ok =>
      rw [planLoop_cons_ok r en rest fs plan fs1 pl1 hstep]
      exact ih fs1 pl1 q
    | templatingError =>
      rw [planLoop_cons_fail r en rest fs plan _ fs1 pl1 hstep (by simp)]
      simp
    | conflict q2 =>
      exact absurd rfl (planStep_not_conflict r en fs plan _ fs1 pl1 q2 hstep)
    | panicked =>
      rw [planLoop_cons_fail r en rest fs plan _ fs1 pl1 hstep (by simp)]
      simp

theorem planStep_file_fs (r : Render) (rel : List TStr) (content : TStr)
    (fs : FS) (plan : Plan) :
    (planStep r (.file rel content) fs plan).2.1 = fs := by
  simp only [planStep]
  repeat' split
  all_goals rfl

theorem planStep_file_ok_iff (r : Render) (rel : List TStr) (content : TStr)
    (fs : FS) (plan : Plan) :
    (planStep r (.file rel content) fs plan).1 = .ok
      ↔ entryFails r (.file rel content) = false := by
  simp only [planStep, entryFails]
  repeat' split
  all_goals simp_all

theorem planStep_file_outcome (r : Render) (rel : List TStr) (content : TStr)
    (fs : FS) (plan : Plan) :
    (planStep r (.file rel content) fs plan).1 = .ok ∨
      (planStep r (.file rel content) fs plan).1 = .templatingError := by
  simp only [planStep]
  repeat' split
  all_goals simp

theorem noLinks_cons (en : TEntry) (rest : List TEntry)
    (h : noLinks (en :: rest) = true) : noLinks rest = true := by
  simp only [noLinks, List.all_cons, Bool.and_eq_true] at h
  exact h.2

theorem noLinks_cons_file (rel : List TStr) (target : String) (rest : List TEntry)
    (h : noLinks (.link rel target :: rest) = true) : False := by
  simp [noLinks, List.all_cons] at h

theorem planLoop_noLinks_fs (r : Render) (entries : List TEntry) :
    ∀ (fs : FS) (plan : Plan), noLinks entries = true →
    (planLoop r entries fs plan).2.1 = fs := by
  induction entries with
  | nil => intro fs plan h; simp [planLoop]
  | cons en rest ih =>
    intro fs plan h
    cases en with
    | link rel target => exact absurd h (by simp [noLinks, List.all_cons])
    | file rel content =>
      rcases hstep : planStep r (.file rel content) fs plan with ⟨o, fs1, pl1⟩
      have hfs : fs1 = fs := by
        have := planStep_file_fs r rel content fs plan
        rw [hstep] at this
        exact this
      cases o with
      | ok =>
        rw [planLoop_cons_ok r _ rest fs plan fs1 pl1 hstep]
        rw [ih fs1 pl1 (noLinks_cons _ rest h)]
        exact hfs
      | templatingError =>
        rw [planLoop_cons_fail r _ rest fs plan Outcome.templatingError fs1 pl1 hstep (by simp)]
        exact hfs
      | conflict q =>
        rw [planLoop_cons_fail r _ rest fs plan (Outcome.conflict q) fs1 pl1 hstep (by simp)]
        exact hfs
      | panicked =>
        rw [planLoop_cons_fail r _ rest fs plan Outcome.panicked fs1 pl1 hstep (by simp)]
        exact hfs

theorem planLoop_noLinks_ok_iff (r : Render) (entries : List TEntry) :
    ∀ (fs : FS) (plan : Plan), noLinks entries = true →
    ((planLoop r entries fs plan).1 = .ok
      ↔ ∀ e ∈ entries, entryFails r e = false) := by
  induction entries with
  | nil => intro fs plan h; simp [planLoop]
  | cons en rest ih =>
    intro fs plan h
    cases en with
    | link rel target => exact absurd h (by simp [noLinks, List.all_cons])
    | file rel content =>
      rcases hstep : planStep r (.file rel content) fs plan with ⟨o, fs1, pl1⟩
      have hiff := planStep_file_ok_iff r rel content fs plan
      rw [hstep] at hiff
      cases o with
      | ok =>
        rw [planLoop_cons_ok r _ rest fs plan fs1 pl1 hstep]
        rw [ih fs1 pl1 (noLinks_cons _ rest h)]
        simp only [List.mem_cons]
        constructor
        · intro hall e he
          rcases he with he | he
          · subst he; exact hiff.mp rfl
          · exact hall e he
        · intro hall e he
          exact hall e (Or.inr he)
      | templatingError =>
        rw [planLoop_cons_fail r _ rest fs plan _ fs1 pl1 hstep (by simp)]
        simp only [List.mem_cons]
        constructor
        · intro hc; exact absurd hc (by simp)
        · intro hall
          have := hall _ (Or.inl rfl)
          have h2 : (Outcome.templatingError : Outcome) = .ok := hiff.mpr this
          exact absurd h2 (by simp)
      | conflict q =>
        have := planStep_file_outcome r rel content fs plan
        rw [hstep] at this
        simp at this
      | panicked =>
        have := planStep_file_outcome r rel content fs plan
        rw [hstep] at this
        simp at this

theorem planLoop_noLinks_outcome (r : Render) (entries : List TEntry) :
    ∀ (fs : FS) (plan : Plan), noLinks entries = true →
    (planLoop r entries fs plan).1 = .ok ∨
      (planLoop r entries fs plan).1 = .templatingError := by
  induction entries with
  | nil => intro fs plan h; simp [planLoop]
  | cons en rest ih =>
    intro fs plan h
    cases en with
    | link rel target => exact absurd h (by simp [noLinks, List.all_cons])
    | file rel content =>
      rcases hstep : planStep r (.file rel content) fs plan with ⟨o, fs1, pl1⟩
      have hout := planStep_file_outcome r rel content fs plan
      rw [hstep] at hout
      cases o with
      | ok =>
        rw [planLoop_cons_ok r _ rest fs plan fs1 pl1 hstep]
        exact ih fs1 pl1 (noLinks_cons _ rest h)
      | templatingError =>
        rw [planLoop_cons_fail r _ rest fs plan _ fs1 pl1 hstep (by simp)]
        simp
      | conflict q => simp at hout
      | panicked => simp at hout

theorem keys_insertPlan_sub (plan : Plan) (p q : FPath) (c : String)
    (h : q ∈ (insertPlan plan p c).map Prod.fst) :
    q ∈ plan.map Prod.fst ∨ q = p := by
  rw [keys_insertPlan] at h
  by_cases hm : p ∈ plan.map Prod.fst
  · rw [if_pos hm] at h; exact Or.inl h
  · rw [if_neg hm] at h
    rcases List.mem_append.mp h with h | h
    · exact Or.inl h
    · exact Or.inr (List.mem_singleton.mp h)

theorem planStep_keys (r : Render) (en : TEntry) (fs : FS) (plan : Plan)
    (o : Outcome) (fs1 : FS) (pl1 : Plan)
    (hstep : planStep r en fs plan = (o, fs1, pl1)) :
    ∀ q ∈ pl1.map Prod.fst, q ∈ plan.map Prod.fst ∨
      ∃ rel content, en = .file rel content ∧ substPath r.context rel = some q := by
  cases en with
  | link rel target =>
    simp only [planStep] at hstep
    repeat' split at hstep
    all_goals cases hstep
    all_goals (intro q hq; exact Or.inl hq)
  | file rel content =>
    simp only [planStep] at hstep
    split at hstep
    · cases hstep; intro q hq; exact Or.inl hq
    · rename_i p2 hs
      split at hstep
      · cases hstep
        intro q hq
        rcases keys_insertPlan_sub plan p2 q _ hq with h | h
        · exact Or.inl h
        · subst h; exact Or.inr ⟨rel, content, rfl, hs⟩
      · split at hstep
        · cases hstep; intro q hq; exact Or.inl hq
        · rename_i c hc
          cases hstep
          intro q hq
          rcases keys_insertPlan_sub plan p2 q _ hq with h | h
          · exact Or.inl h
          · subst h; exact Or.inr ⟨rel, content, rfl, hs⟩

theorem planStep_nodup (r : Render) (en : TEntry) (fs : FS) (plan : Plan)
    (o : Outcome) (fs1 : FS) (pl1 : Plan)
    (hstep : planStep r en fs plan = (o, fs1, pl1))
    (hnd : (plan.map Prod.fst).Nodup) : (pl1.map Prod.fst).Nodup := by
  cases en with
  | link rel target =>
    simp only [planStep] at hstep
    repeat' split at hstep
    all_goals cases hstep
    all_goals exact hnd
  | file rel content =>
    simp only [planStep] at hstep
    repeat' split at hstep
    all_goals cases hstep
    all_goals first
      | exact hnd
      | exact nodup_keys_insertPlan plan _ _ hnd

theorem planLoop_keys (r : Render) (entries : List TEntry) :
    ∀ (fs : FS) (plan : Plan),
    ∀ q ∈ ((planLoop r entries fs plan).2.2.map Prod.fst),
    q ∈ plan.map Prod.fst ∨
      ∃ rel content, TEntry.file rel content ∈ entries ∧
        substPath r.context rel = some q := by
  induction entries with
  | nil =>
    intro fs plan q hq
    simp only [planLoop] at hq
    exact Or.inl hq
  | cons en rest ih =>
    intro fs plan q hq
    rcases hstep : planStep r en fs plan with ⟨o, fs1, pl1⟩
    have hkeys := planStep_keys r en fs plan o fs1 pl1 hstep
    cases o with
    | ok =>
      rw [planLoop_cons_ok r en rest fs plan fs1 pl1 hstep] at hq
      rcases ih fs1 pl1 q hq with h | ⟨rel, content, hmem, hsub⟩
      · rcases hkeys q h with h2 | ⟨rel, content, hen, hsub⟩
        · exact Or.inl h2
        · exact Or.inr ⟨rel, content, hen ▸ List.mem_cons_self en rest, hsub⟩
      · exact Or.inr ⟨rel, content, List.mem_cons_of_mem en hmem, hsub⟩
    | templatingError =>
      rw [planLoop_cons_fail r en rest fs plan _ fs1 pl1 hstep (by simp)] at hq
      rcases hkeys q hq with h2 | ⟨rel, content, hen, hsub⟩
      · exact Or.inl h2
      · exact Or.inr ⟨rel, content, hen ▸ List.mem_cons_self en rest, hsub⟩
    | conflict q2 =>
      rw [planLoop_cons_fail r en rest fs plan _ fs1 pl1 hstep (by simp)] at hq
      rcases hkeys q hq with h2 | ⟨rel, content, hen, hsub⟩
      · exact Or.inl h2
      · exact Or.inr ⟨rel, content, hen ▸ List.mem_cons_self en rest, hsub⟩
    | panicked =>
      rw [planLoop_cons_fail r en rest fs plan _ fs1 pl1 hstep (by simp)] at hq
      rcases hkeys q hq with h2 | ⟨rel, content, hen, hsub⟩
      · exact Or.inl h2
      · exact Or.inr ⟨rel, content, hen ▸ List.mem_cons_self en rest, hsub⟩

theorem planLoop_nodup (r : Render) (entries : List TEntry) :
    ∀ (fs : FS) (plan : Plan), (plan.map Prod.fst).Nodup →
    (((planLoop r entries fs plan).2.2).map Prod.fst).Nodup := by
  induction entries with
  | nil => intro fs plan hnd; simpa [planLoop] using hnd
  | cons en rest ih =>
    intro fs plan hnd
    rcases hstep : planStep r en fs plan with ⟨o, fs1, pl1⟩
    have hnd1 := planStep_nodup r en fs plan o fs1 pl1 hstep hnd
    cases o with
    | ok =>
      rw [planLoop_cons_ok r en rest fs plan fs1 pl1 hstep]
      exact ih fs1 pl1 hnd1
    | templatingError =>
      rw [planLoop_cons_fail r en rest fs plan _ fs1 pl1 hstep (by simp)]
      exact hnd1
    | conflict q =>
      rw [planLoop_cons_fail r en rest fs plan _ fs1 pl1 hstep (by simp)]
      exact hnd1
    | panicked =>
      rw [planLoop_cons_fail r en rest fs plan _ fs1 pl1 hstep (by simp)]
      exact hnd1

/-! ## Lemmas about the conflict check and the dump loop -/

theorem conflictCheck_some (fs : FS) (plan : Plan) :
    ∀ (p : FPath), conflictCheck fs plan = some p →
    existsFS fs p = true ∧ p ∈ plan.map Prod.fst := by
  induction plan with
  | nil => intro p h; simp [conflictCheck] at h
  | cons kv rest ih =>
    intro p h
    obtain ⟨q, c⟩ := kv
    simp only [conflictCheck] at h
    by_cases hex : existsFS fs q = true
    · rw [if_pos hex] at h
      cases h
      exact ⟨hex, by simp⟩
    · rw [if_neg hex] at h
      rcases ih p h with ⟨h1, h2⟩
      exact ⟨h1, by simp [h2]⟩

theorem conflictCheck_none (fs : FS) (plan : Plan)
    (h : conflictCheck fs plan = none) :
    ∀ q ∈ plan.map Prod.fst, existsFS fs q = false := by
  induction plan with
  | nil => intro q hq; simp at hq
  | cons kv rest ih =>
    intro q hq
    obtain ⟨q0, c⟩ := kv
    simp only [conflictCheck] at h
    by_cases hex : existsFS fs q0 = true
    · rw [if_pos hex] at h; exact absurd h (by simp)
    · rw [if_neg hex] at h
      rw [List.map_cons] at hq
      rcases List.mem_cons.mp hq with hq2 | hq2
      · subst hq2; simpa using hex
      · exact ih h q hq2

theorem conflictCheck_hit (fs : FS) (plan : Plan) (q : FPath)
    (hq : q ∈ plan.map Prod.fst) (hex : existsFS fs q = true) :
    ∃ p, conflictCheck fs plan = some p := by
  cases hcc : conflictCheck fs plan with
  | some p => exact ⟨p, rfl⟩
  | none =>
    have := conflictCheck_none fs plan hcc q hq
    rw [hex] at this
    exact absurd this (by simp)

theorem dumpLoop_keeps_link (ov : Bool) (plan : Plan) :
    ∀ (fs : FS) (p : FPath) (t : String),
    lookupFS fs p = some (.link t) →
    lookupFS (dumpLoop ov fs plan).2 p = some (.link t) := by
  induction plan with
  | nil =>
    intro fs p t hp
    simpa [dumpLoop] using hp
  | cons kv rest ih =>
    intro fs p t hp
    obtain ⟨q, c⟩ := kv
    simp only [dumpLoop]
    split
    · simpa using hp
    · rename_i fs1 hens
      have hp1 := ensureParent_keeps fs fs1 q p (.link t) hp hens
      split
      · split
        · simpa using hp1
        · rename_i fs2 hwr
          exact ih fs2 p t (writeFS_keeps_link fs1 fs2 c q p t hp1 hwr)
      · exact ih fs1 p t hp1

theorem dumpLoop_preserves_file (ov : Bool) (plan : Plan) :
    ∀ (fs : FS) (p : FPath) (c0 : String),
    noLinksFS fs = true →
    lookupFS fs p = some (.file c0) → p ∉ plan.map Prod.fst →
    lookupFS (dumpLoop ov fs plan).2 p = some (.file c0) := by
  induction plan with
  | nil =>
    intro fs p c0 hnl hp hmem
    simpa [dumpLoop] using hp
  | cons kv rest ih =>
    intro fs p c0 hnl hp hmem
    obtain ⟨q, c⟩ := kv
    have hqp : p ≠ q := fun hc => hmem (by simp [hc])
    have hrest : p ∉ rest.map Prod.fst := fun hc => hmem (by simp [hc])
    simp only [dumpLoop]
    split
    · simpa using hp
    · rename_i fs1 hens
      have hp1 := ensureParent_keeps fs fs1 q p (.file c0) hp hens
      have hnl1 := ensureParent_no_links fs fs1 q hnl hens
      split
      · split
        · simpa using hp1
        · rename_i fs2 hwr
          obtain ⟨hp2, hnl2⟩ :=
            writeFS_no_links_keeps fs1 fs2 c q p (.file c0) hnl1 hp1 hqp hwr
          exact ih fs2 p c0 hnl2 hp2 hrest
      · exact ih fs1 p c0 hnl1 hp1 hrest

theorem dumpLoop_writes (plan : Plan) :
    ∀ (fs fs2 : FS), noLinksFS fs = true → (plan.map Prod.fst).Nodup →
    dumpLoop true fs plan = (true, fs2) →
    ∀ (p : FPath) (c : String), (p, c) ∈ plan →
    lookupFS fs2 p = some (.file c) := by
  induction plan with
  | nil =>
    intro fs fs2 hnl hnd h p c hmem
    simp at hmem
  | cons kv rest ih =>
    intro fs fs2 hnl hnd h p c hmem
    obtain ⟨q, c0⟩ := kv
    simp only [dumpLoop] at h
    split at h
    · simp at h
    · rename_i fs1 hens
      have hnl1 := ensureParent_no_links fs fs1 q hnl hens
      rw [if_pos (by simp)] at h
      split at h
      · simp at h
      · rename_i fsw hwr
        obtain ⟨rq, hres, hfsw, -, -⟩ := writeFS_eq fs1 fsw c0 q hwr
        rw [resolvePath_no_links fs1 hnl1 q] at hres
        have hrq : rq = q := (Option.some.inj hres).symm
        rw [hrq] at hfsw
        rw [hfsw] at h
        have hnlw : noLinksFS (insertFS fs1 q (.file c0)) = true :=
          noLinksFS_insertFS fs1 q (.file c0) hnl1 (by simp)
        have hndr : (rest.map Prod.fst).Nodup :=
          (List.nodup_cons.mp (by simpa using hnd)).2
        rcases List.mem_cons.mp hmem with hqc | hmem2
        · have hpq : p = q := congrArg Prod.fst hqc
          have hcc : c = c0 := congrArg Prod.snd hqc
          have hnotin : p ∉ rest.map Prod.fst := by
            rw [hpq]
            exact (List.nodup_cons.mp (by simpa using hnd)).1
          have hlw : lookupFS (insertFS fs1 q (.file c0)) p = some (.file c) := by
            rw [hpq, hcc]
            exact lookupFS_insertFS_self fs1 q (.file c0)
          have hpres := dumpLoop_preserves_file true rest
            (insertFS fs1 q (.file c0)) p c hnlw hlw hnotin
          rw [h] at hpres
          exact hpres
        · exact ih (insertFS fs1 q (.file c0)) fs2 hnlw hndr h p c hmem2

/-! ## Destructuring lemmas for `renderExec` and `afterPlan` -/

theorem renderExec_of_planLoop_ok (r : Render) (entries : List TEntry)
    (fs0 fs1 : FS) (plan : Plan)
    (h : planLoop r entries fs0 [] = (.ok, fs1, plan)) :
    renderExec r entries fs0 = afterPlan r fs1 plan := by
  unfold renderExec
  rw [h]

theorem renderExec_of_planLoop_fail (r : Render) (entries : List TEntry)
    (fs0 fs1 : FS) (plan : Plan) (o : Outcome)
    (h : planLoop r entries fs0 [] = (o, fs1, plan)) (ho : o ≠ .ok) :
    renderExec r entries fs0 = (o, fs1) := by
  unfold renderExec
  rw [h]
  cases o with
  | ok => exact absurd rfl ho
  | templatingError => rfl
  | conflict p => rfl
  | panicked => rfl

theorem renderExec_ok_planLoop (r : Render) (entries : List TEntry)
    (fs0 fsr : FS)
    (h : renderExec r entries fs0 = (.ok, fsr)) :
    ∃ fs1 plan, planLoop r entries fs0 [] = (.ok, fs1, plan) ∧
      afterPlan r fs1 plan = (.ok, fsr) := by
  rcases hpl : planLoop r entries fs0 [] with ⟨o, fs1, plan⟩
  cases o with
  | ok =>
    rw [renderExec_of_planLoop_ok r entries fs0 fs1 plan hpl] at h
    exact ⟨fs1, plan, rfl, h⟩
  | templatingError =>
    rw [renderExec_of_planLoop_fail r entries fs0 fs1 plan _ hpl (by simp)] at h
    simp at h
  | conflict q =>
    have hnc := planLoop_not_conflict r entries fs0 [] q
    rw [hpl] at hnc
    exact absurd rfl hnc
  | panicked =>
    rw [renderExec_of_planLoop_fail r entries fs0 fs1 plan _ hpl (by simp)] at h
    simp at h

theorem afterPlan_ok_dump (r : Render) (fs : FS) (plan : Plan) (fs2 : FS)
    (h : afterPlan r fs plan = (.ok, fs2)) :
    dumpLoop r.overwrite_if_exists fs plan = (true, fs2) := by
  unfold afterPlan at h
  by_cases hpol : (!r.overwrite_if_exists && !r.skip_if_exists) = true
  · rw [if_pos hpol] at h
    cases hcc : conflictCheck fs plan with
    | some p => rw [hcc] at h; simp at h
    | none =>
      rw [hcc] at h
      rcases hd : dumpLoop r.overwrite_if_exists fs plan with ⟨b, fsd⟩
      rw [hd] at h
      cases b
      · simp at h
      · have h2 : fsd = fs2 := congrArg Prod.snd h
        rw [h2]
  · rw [if_neg hpol] at h
    rcases hd : dumpLoop r.overwrite_if_exists fs plan with ⟨b, fsd⟩
    rw [hd] at h
    cases b
    · simp at h
    · have h2 : fsd = fs2 := congrArg Prod.snd h
      rw [h2]

theorem afterPlan_conflict (r : Render) (fs : FS) (plan : Plan)
    (p : FPath) (fsr : FS)
    (h : afterPlan r fs plan = (.conflict p, fsr)) :
    conflictCheck fs plan = some p ∧ fsr = fs := by
  unfold afterPlan at h
  by_cases hpol : (!r.overwrite_if_exists && !r.skip_if_exists) = true
  · rw [if_pos hpol] at h
    cases hcc : conflictCheck fs plan with
    | some q =>
      rw [hcc] at h
      cases h
      exact ⟨rfl, rfl⟩
    | none =>
      rw [hcc] at h
      rcases hd : dumpLoop r.overwrite_if_exists fs plan with ⟨b, fsd⟩
      rw [hd] at h
      cases b <;> simp at h
  · rw [if_neg hpol] at h
    rcases hd : dumpLoop r.overwrite_if_exists fs plan with ⟨b, fsd⟩
    rw [hd] at h
    cases b <;> simp at h

theorem afterPlan_of_conflictCheck (r : Render) (fs : FS) (plan : Plan)
    (p : FPath)
    (hpol : (!r.overwrite_if_exists && !r.skip_if_exists) = true)
    (hcc : conflictCheck fs plan = some p) :
    afterPlan r fs plan = (.conflict p, fs) := by
  unfold afterPlan
  rw [if_pos hpol, hcc]

/-! ## Helper lemmas about `List.mapM` over `Option` -/

theorem mapM_some_forall {α β : Type} (f : α → Option β) (l : List α) :
    ∀ (res : List β), l.mapM f = some res → ∀ a ∈ l, ∃ b, f a = some b := by
  induction l with
  | nil => intro res h a ha; simp at ha
  | cons x rest ih =>
    intro res h a ha
    rcases List.mem_cons.mp ha with rfl | ha2
    · cases hx : f a with
      | some b => exact ⟨b, rfl⟩
      | none => rw [List.mapM_cons, hx] at h; simp at h
    · cases hr : rest.mapM f with
      | some bs => exact ih bs hr a ha2
      | none =>
        rw [List.mapM_cons] at h
        cases hx : f x with
        | none => rw [hx] at h; simp at h
        | some b => rw [hx, hr] at h; simp at h

theorem mapM_some_mem {α β : Type} (f : α → Option β) (l : List α) :
    ∀ (res : List β), l.mapM f = some res →
    ∀ b : β, (b ∈ res ↔ ∃ a ∈ l, f a = some b) := by
  induction l with
  | nil =>
    intro res h b
    simp only [List.mapM_nil, Option.pure_def, Option.some.injEq] at h
    subst h
    simp
  | cons x rest ih =>
    intro res h b
    rw [List.mapM_cons] at h
    cases hx : f x with
    | none => rw [hx] at h; simp at h
    | some bx =>
      rw [hx] at h
      cases hr : rest.mapM f with
      | none => rw [hr] at h; simp at h
      | some bs =>
        rw [hr] at h
        simp only [Option.pure_def, Option.bind_eq_bind, Option.some_bind,
          Option.some.injEq] at h
        subst h
        constructor
        · intro hb
          rcases List.mem_cons.mp hb with rfl | hb2
          · exact ⟨x, List.mem_cons_self x rest, hx⟩
          · obtain ⟨a, ha, hfa⟩ := (ih bs hr b).mp hb2
            exact ⟨a, List.mem_cons_of_mem x ha, hfa⟩
        · rintro ⟨a, ha, hfa⟩
          rcases List.mem_cons.mp ha with rfl | ha2
          · rw [hx] at hfa
            cases hfa
            exact List.mem_cons_self _ _
          · exact List.mem_cons_of_mem bx ((ih bs hr b).mpr ⟨a, ha2, hfa⟩)

/-! ## C10 -/

/-- C10: `Render::new` applies template substitution to each exclusion
pattern, prefixed with the entry directory name, against the context at
construction time and unwraps the result (`render.rs` lines 33–40); a
pattern referencing a variable undefined in the context therefore makes
construction panic (modelled as `none`) instead of returning an error
value. -/
theorem new_panics_on_untemplatable_pattern
    (entryDirName : TStr) (context : Ctx) (overwrite skip : Bool)
    (excludePats : List (List TStr)) (pat : List TStr)
    (hmem : pat ∈ excludePats)
    (hfail : substPath context (entryDirName :: pat) = none) :
    Render.new entryDirName context overwrite skip excludePats = none := by
  unfold Render.new
  cases hm : excludePats.mapM (fun q => substPath context (entryDirName :: q)) with
  | none => rfl
  | some rendered =>
    obtain ⟨b, hb⟩ := mapM_some_forall
      (fun q => substPath context (entryDirName :: q)) excludePats rendered hm pat hmem
    rw [hfail] at hb
    exact absurd hb (by simp)

/-- C10 witness: a concrete construction with an undefined variable in
the exclusion pattern panics. -/
theorem new_panics_on_untemplatable_pattern_witness :
    Render.new [Piece.lit "e"] [] false false [[[Piece.var "missing"]]] = none :=
  new_panics_on_untemplatable_pattern [Piece.lit "e"] [] false false
    [[[Piece.var "missing"]]] [[Piece.var "missing"]] (by decide) (by rfl)

/-! ## C7 -/

/-- Modelled from the spec (§3, ExclusionList): "a set of relative path
patterns (relative to the entry directory, after no templating is
applied to them)".  The spec-side matcher compares a file's path
relative to the entry directory against the raw, untemplated pattern
text. -/
def excludedSpec (pats : List (List TStr)) (relToEntry : List String) : Bool :=
  pats.any (fun pat => relToEntry = pat.map rawTStr)

def patsC7 : List (List TStr) := [[[Piece.var "x", Piece.lit ".txt"]]]

def rC7 : Render :=
  ⟨[Piece.lit "e"], [("x", "hello")], false, false, [["e", "hello.txt"]]⟩

/-- C7 counterexample: `Render::new` with context `x := "hello"` stores
the exclusion pattern already template-substituted (`e/hello.txt`), not
as given; in particular, the stored entry differs from the raw pattern
text, and the code's exclusion decision for the file whose rendered
relative path is `e/hello.txt` (excluded) disagrees with the spec-side
untemplated matching (not excluded). -/
theorem exclusion_pattern_templated_counterexample :
    Render.new [Piece.lit "e"] [("x", "hello")] false false patsC7 = some rC7
    ∧ rC7.exclude_render_paths
        ≠ [["e", rawTStr [Piece.var "x", Piece.lit ".txt"]]]
    ∧ (["e", "hello.txt"] ∈ rC7.exclude_render_paths)
    ∧ excludedSpec patsC7 ["hello.txt"] = false := by
  refine ⟨by decide, by decide, by decide, by decide⟩

/-- C7 amended: each exclusion entry is prefixed with the entry
directory name and template-substituted against the context at
construction time; a file is excluded exactly when its templated
relative path equals one of these templated, prefixed entries. -/
theorem exclusion_patterns_rendered_at_construction
    (entryDirName : TStr) (context : Ctx) (overwrite skip : Bool)
    (excludePats : List (List TStr)) (r : Render)
    (h : Render.new entryDirName context overwrite skip excludePats = some r) :
    excludePats.mapM (fun pat => substPath context (entryDirName :: pat))
        = some r.exclude_render_paths
    ∧ ∀ p : FPath, p ∈ r.exclude_render_paths ↔
        ∃ pat ∈ excludePats, substPath context (entryDirName :: pat) = some p := by
  unfold Render.new at h
  cases hm : excludePats.mapM (fun pat => substPath context (entryDirName :: pat)) with
  | none => rw [hm] at h; exact absurd h (by simp)
  | some rendered =>
    rw [hm] at h
    have hr : r.exclude_render_paths = rendered := by
      cases h; rfl
    rw [hr]
    exact ⟨rfl, fun p =>
      mapM_some_mem (fun pat => substPath context (entryDirName :: pat))
        excludePats rendered hm p⟩

/-- C7 amended witness: the construction of `rC7` renders its single
pattern to `e/hello.txt`. -/
theorem exclusion_patterns_rendered_at_construction_witness :
    patsC7.mapM (fun pat => substPath [("x", "hello")] ([Piece.lit "e"] :: pat))
      = some rC7.exclude_render_paths :=
  (exclusion_patterns_rendered_at_construction [Piece.lit "e"] [("x", "hello")]
    false false patsC7 rC7 (by decide)).1

/-! ## C5 -/

/-- C5: a regular file whose templated relative path matches an entry
of the exclusion list has its raw content copied into the plan
verbatim — content substitution is never invoked, so an undefined
variable inside its content (substitution failing) raises no
templating error — while its path is still the substituted one. -/
theorem excluded_file_content_verbatim
    (r : Render) (rel : List TStr) (content : TStr) (rest : List TEntry)
    (fs : FS) (plan : Plan) (p : FPath)
    (hsub : substPath r.context rel = some p)
    (hex : p ∈ r.exclude_render_paths)
    (_hundef : substTStr r.context content = none) :
    planLoop r (.file rel content :: rest) fs plan
      = planLoop r rest fs (insertPlan plan p (rawTStr content)) := by
  have hstep : planStep r (.file rel content) fs plan
      = (.ok, fs, insertPlan plan p (rawTStr content)) := by
    simp only [planStep, hsub]
    rw [if_pos hex]
  exact planLoop_cons_ok r _ rest fs plan _ _ hstep

def rC5 : Render := ⟨[Piece.lit "e"], [], false, false, [["e", "x.txt"]]⟩

/-- C5 witness: a file whose content references the undefined variable
`nope` is planned with its raw content because its rendered path
`e/x.txt` is excluded. -/
theorem excluded_file_content_verbatim_witness :
    substTStr rC5.context [Piece.var "nope"] = none ∧
    planLoop rC5 [.file [[Piece.lit "e"], [Piece.lit "x.txt"]] [Piece.var "nope"]] [] []
      = planLoop rC5 [] []
          (insertPlan [] ["e", "x.txt"] (rawTStr [Piece.var "nope"])) :=
  ⟨by decide,
   excluded_file_content_verbatim rC5 [[Piece.lit "e"], [Piece.lit "x.txt"]]
    [Piece.var "nope"] [] [] [] ["e", "x.txt"] (by decide) (by decide) (by decide)⟩

/-! ## C1 -/

def rC1 : Render := ⟨[Piece.lit "e"], [], false, false, []⟩

/-- C1 counterexample: a template tree whose first entry (in traversal
order) is a symlink and whose last entry is a file with an undefined
variable in its relative path.  `render()` returns the templating
error, but the destination is not empty: the symlink and its parent
directory were created eagerly during plan building
(`render.rs` lines 77–82). -/
theorem templating_failure_partial_symlink_output :
    renderExec rC1
        [.link [[Piece.lit "e"], [Piece.lit "s"]] "tgt",
         .file [[Piece.lit "e"], [Piece.var "missing"]] []] []
      = (.templatingError, [(["e", "s"], Entry.link "tgt"), (["e"], Entry.dir)])
    ∧ ([(["e", "s"], Entry.link "tgt"), (["e"], Entry.dir)] : FS) ≠ [] := by
  exact ⟨by decide, by decide⟩

/-- C1 amended (restricted to symlink-free template trees, as the
counterexample forces): whenever substitution of any relative path or
of any non-excluded file's content fails, `render()` returns the typed
templating error and the destination filesystem is exactly as it was
before the call — zero new files, symlinks or directories. -/
theorem templating_failure_leaves_destination_unchanged
    (r : Render) (entries : List TEntry) (fs0 : FS)
    (hnl : noLinks entries = true)
    (hfail : ∃ e ∈ entries, entryFails r e = true) :
    renderExec r entries fs0 = (.templatingError, fs0) := by
  rcases hpl : planLoop r entries fs0 [] with ⟨o, fs1, plan⟩
  have hfs : fs1 = fs0 := by
    have := planLoop_noLinks_fs r entries fs0 [] hnl
    rw [hpl] at this
    exact this
  have hnotok : o ≠ .ok := by
    intro hc
    have hiff := planLoop_noLinks_ok_iff r entries fs0 [] hnl
    rw [hpl] at hiff
    subst hc
    obtain ⟨e, hmem, hf⟩ := hfail
    have h2 := (hiff.mp rfl) e hmem
    rw [hf] at h2
    exact absurd h2 (by simp)
  have houtc := planLoop_noLinks_outcome r entries fs0 [] hnl
  rw [hpl] at houtc
  rcases houtc with hok | hte
  · exact absurd hok hnotok
  · have ho : o = .templatingError := hte
    subst ho
    rw [renderExec_of_planLoop_fail r entries fs0 fs1 plan _ hpl (by simp)]
    rw [hfs]

/-- C1 amended witness: a two-file tree whose second file has an
undefined variable in its path leaves a pre-existing destination
completely unchanged. -/
theorem templating_failure_leaves_destination_unchanged_witness :
    renderExec rC1
        [.file [[Piece.lit "e"], [Piece.lit "good.txt"]] [Piece.lit "ok"],
         .file [[Piece.lit "e"], [Piece.var "missing"]] []]
        [(["z"], Entry.file "keep")]
      = (.templatingError, [(["z"], Entry.file "keep")]) :=
  templating_failure_leaves_destination_unchanged rC1
    [.file [[Piece.lit "e"], [Piece.lit "good.txt"]] [Piece.lit "ok"],
     .file [[Piece.lit "e"], [Piece.var "missing"]] []]
    [(["z"], Entry.file "keep")] (by decide)
    ⟨.file [[Piece.lit "e"], [Piece.var "missing"]] [], by decide, by decide⟩

/-! ## C2 -/

def rC2 : Render := ⟨[Piece.lit "e"], [], false, false, []⟩

def fsC2 : FS := [(["e"], .dir), (["e", "f"], .file "old")]

/-- C2 counterexample: under the Fail policy, a template containing a
symlink plus a regular file whose destination already exists returns
the destination-conflict error — but the symlink has already been
written to the destination, so "zero destination paths are written or
modified" fails. -/
theorem fail_policy_symlink_written_on_conflict :
    renderExec rC2
        [.link [[Piece.lit "e"], [Piece.lit "s"]] "tgt",
         .file [[Piece.lit "e"], [Piece.lit "f"]] [Piece.lit "x"]] fsC2
      = (.conflict ["e", "f"],
         [(["e", "s"], Entry.link "tgt"), (["e"], Entry.dir),
          (["e", "f"], Entry.file "old")])
    ∧ lookupFS fsC2 ["e", "s"] = none
    ∧ lookupFS
        [(["e", "s"], Entry.link "tgt"), (["e"], Entry.dir),
         (["e", "f"], Entry.file "old")] ["e", "s"] = some (.link "tgt") := by
  exact ⟨by decide, by decide, by decide⟩

/-- C2 amended (restricted to symlink-free template trees, as the
counterexample forces): under the Fail policy, (1) whenever `render()`
returns a destination-conflict error naming `p`, the path `p` already
existed and the destination is exactly as before the call; and
(2) whenever planning succeeds and some planned destination path
already exists, `render()` does return a conflict error with the
destination unchanged. -/
theorem fail_policy_conflict_all_or_nothing
    (r : Render) (entries : List TEntry) (fs0 : FS)
    (hov : r.overwrite_if_exists = false) (hsk : r.skip_if_exists = false)
    (hnl : noLinks entries = true) :
    (∀ (p : FPath) (fs1 : FS), renderExec r entries fs0 = (.conflict p, fs1) →
      existsFS fs0 p = true ∧ fs1 = fs0)
    ∧ ((∀ e ∈ entries, entryFails r e = false) →
       ∀ q ∈ ((planLoop r entries fs0 []).2.2.map Prod.fst),
       existsFS fs0 q = true →
       ∃ p, renderExec r entries fs0 = (.conflict p, fs0)) := by
  have hpol : (!r.overwrite_if_exists && !r.skip_if_exists) = true := by
    rw [hov, hsk]; rfl
  constructor
  · intro p fs1 h
    rcases hpl : planLoop r entries fs0 [] with ⟨o, fsp, plan⟩
    have hfs : fsp = fs0 := by
      have := planLoop_noLinks_fs r entries fs0 [] hnl
      rw [hpl] at this
      exact this
    have houtc := planLoop_noLinks_outcome r entries fs0 [] hnl
    rw [hpl] at houtc
    rcases houtc with hok | hte
    · have ho : o = .ok := hok
      subst ho
      rw [renderExec_of_planLoop_ok r entries fs0 fsp plan hpl] at h
      obtain ⟨hcc, hfs1⟩ := afterPlan_conflict r fsp plan p fs1 h
      obtain ⟨hex, _⟩ := conflictCheck_some fsp plan p hcc
      rw [hfs] at hex
      rw [hfs1, hfs]
      exact ⟨hex, rfl⟩
    · have ho : o = .templatingError := hte
      subst ho
      rw [renderExec_of_planLoop_fail r entries fs0 fsp plan _ hpl (by simp)] at h
      simp at h
  · intro hall q hq hex
    rcases hpl : planLoop r entries fs0 [] with ⟨o, fsp, plan⟩
    have hfs : fsp = fs0 := by
      have := planLoop_noLinks_fs r entries fs0 [] hnl
      rw [hpl] at this
      exact this
    have hiff := planLoop_noLinks_ok_iff r entries fs0 [] hnl
    rw [hpl] at hiff
    have ho : o = .ok := hiff.mpr hall
    subst ho
    rw [hpl] at hq
    obtain ⟨p, hcc⟩ := conflictCheck_hit fsp plan q hq (by rw [hfs]; exact hex)
    refine ⟨p, ?_⟩
    rw [renderExec_of_planLoop_ok r entries fs0 fsp plan hpl]
    rw [afterPlan_of_conflictCheck r fsp plan p hpol hcc, hfs]

/-- C2 amended witness: two planned files, one colliding, under the
Fail policy: the conflict is reported and the destination is exactly
the one colliding pre-existing file. -/
theorem fail_policy_conflict_all_or_nothing_witness :
    ∃ p, renderExec rC2
        [.file [[Piece.lit "e"], [Piece.lit "f"]] [Piece.lit "x"],
         .file [[Piece.lit "e"], [Piece.lit "g"]] [Piece.lit "y"]] fsC2
      = (.conflict p, fsC2) :=
  (fail_policy_conflict_all_or_nothing rC2
      [.file [[Piece.lit "e"], [Piece.lit "f"]] [Piece.lit "x"],
       .file [[Piece.lit "e"], [Piece.lit "g"]] [Piece.lit "y"]] fsC2
      rfl rfl (by decide)).2 (by decide) ["e", "f"] (by decide) (by decide)

/-! ## C6 -/

def rC6 : Render := ⟨[Piece.lit "e"], [], false, false, []⟩

def fsC6 : FS := [(["e"], .dir), (["e", "s"], .file "x")]

/-- C6 counterexample: a filesystem failure (the symlink destination
already exists, so the `symlink` call fails) makes `render()` panic —
`render.rs` line 81 unwraps the result — instead of returning a typed
error value. -/
theorem render_panics_on_existing_symlink_dest :
    renderExec rC6 [.link [[Piece.lit "e"], [Piece.lit "s"]] "t"] fsC6
      = (.panicked, fsC6) := by
  decide

/-- C6 amended: a templating failure on a relative path is returned as
the typed templating error, but not every failure is a typed error: a
symlink entry whose substituted destination path already holds any
entry makes `render()` panic (`render.rs` line 81 unwraps the
`symlink` call, which fails with `EEXIST`). -/
theorem io_failure_panics_templating_typed
    (r : Render) (rel : List TStr) (target : String) (rest : List TEntry)
    (fs0 : FS) :
    (∀ (p : FPath) (e : Entry), substPath r.context rel = some p →
      lookupFS fs0 p = some e →
      (renderExec r (.link rel target :: rest) fs0).1 = .panicked)
    ∧ (substPath r.context rel = none →
      renderExec r (.link rel target :: rest) fs0 = (.templatingError, fs0)) := by
  constructor
  · intro p e hsub hent
    cases hens : ensureParent fs0 p with
    | none =>
      have hstep : planStep r (.link rel target) fs0 [] = (.panicked, fs0, []) := by
        simp only [planStep, hsub, hens]
      rw [renderExec_of_planLoop_fail r (.link rel target :: rest) fs0 fs0 []
        _ (planLoop_cons_fail r _ rest fs0 [] _ fs0 [] hstep (by simp)) (by simp)]
    | some fs1 =>
      have hent1 : lookupFS fs1 p = some e := ensureParent_keeps fs0 fs1 p p e hent hens
      have hsym : symlinkFS fs1 target p = none :=
        symlinkFS_none_of_lookup fs1 target p e hent1
      have hstep : planStep r (.link rel target) fs0 [] = (.panicked, fs1, []) := by
        simp only [planStep, hsub, hens, hsym]
      rw [renderExec_of_planLoop_fail r (.link rel target :: rest) fs0 fs1 []
        _ (planLoop_cons_fail r _ rest fs0 [] _ fs1 [] hstep (by simp)) (by simp)]
  · intro hsub
    have hstep : planStep r (.link rel target) fs0 [] = (.templatingError, fs0, []) := by
      simp only [planStep, hsub]
    exact renderExec_of_planLoop_fail r (.link rel target :: rest) fs0 fs0 []
      _ (planLoop_cons_fail r _ rest fs0 [] _ fs0 [] hstep (by simp)) (by simp)

/-- C6 amended witness: the concrete panic of the counterexample
obtained through the general theorem, plus a concrete typed templating
error. -/
theorem io_failure_panics_templating_typed_witness :
    (renderExec rC6 [.link [[Piece.lit "e"], [Piece.lit "s"]] "t"] fsC6).1
      = .panicked
    ∧ renderExec rC6 [.link [[Piece.lit "e"], [Piece.var "nope"]] "t"] fsC6
      = (.templatingError, fsC6) :=
  ⟨(io_failure_panics_templating_typed rC6 [[Piece.lit "e"], [Piece.lit "s"]]
      "t" [] fsC6).1 ["e", "s"] (.file "x") (by decide) (by decide),
   (io_failure_panics_templating_typed rC6 [[Piece.lit "e"], [Piece.var "nope"]]
      "t" [] fsC6).2 (by decide)⟩

/-! ## C3 -/

def rC3 : Render := ⟨[Piece.lit "e"], [], false, false, []⟩

def fsC3 : FS := [(["e"], .dir), (["e", "blk"], .file "B")]

/-- C3: there is no staging and no atomic rename — `render.rs` lines
109–118 write each planned file directly into the destination with
`fs::write`.  Concretely: with a pre-existing file blocking the parent
directory of the second planned file, the call panics after having
already written the first rendered file into the destination, which is
impossible under stage-in-temp-then-rename semantics. -/
theorem render_writes_directly_partial_on_failure :
    renderExec rC3
        [.file [[Piece.lit "e"], [Piece.lit "a"]] [Piece.lit "A"],
         .file [[Piece.lit "e"], [Piece.lit "blk"], [Piece.lit "x"]] [Piece.lit "X"]]
        fsC3
      = (.panicked,
         [(["e", "a"], Entry.file "A"), (["e"], Entry.dir),
          (["e", "blk"], Entry.file "B")])
    ∧ lookupFS
        [(["e", "a"], Entry.file "A"), (["e"], Entry.dir),
         (["e", "blk"], Entry.file "B")] ["e", "a"] = some (.file "A")
    ∧ lookupFS fsC3 ["e", "a"] = none := by
  exact ⟨by decide, by decide, by decide⟩

/-! ## Order-independence machinery for the dump phase -/

/-- A destination in which every proper non-empty prefix of an
occupied path holds a directory (the shape the render engine itself
always leaves behind, and trivially true of an empty destination). -/
def WFfs (fs : FS) : Prop :=
  ∀ (p : FPath) (e : Entry), lookupFS fs p = some e →
    ∀ q : FPath, q ≠ [] → q <+: p → q ≠ p → lookupFS fs q = some .dir

/-- The paths that `create_dir_all` turns into directories while a
plan is dumped: the proper prefixes of the planned destinations. -/
def keyDirs (pl : Plan) (p : FPath) : Bool :=
  pl.any (fun kv => decide (p <+: kv.1 ∧ p ≠ kv.1))

/-- Pointwise characterisation of one dump-loop iteration over a key
the initial destination does not occupy (or holds as a directory):
fresh proper prefixes of the key become directories, the key itself
(when previously absent and non-root) receives the file, and every
other path is untouched. -/
def stepChar (k : FPath) (c : String) (fs : FS) (p : FPath) : Option Entry :=
  if p ≠ [] ∧ lookupFS fs p = none ∧ p <+: k ∧ p ≠ k then some .dir
  else if p = k ∧ k ≠ [] ∧ lookupFS fs k = none then some (.file c)
  else lookupFS fs p

/-- Pointwise characterisation of a whole successful dump: existing
entries win, fresh proper prefixes of planned keys become
directories, and a fresh planned key receives its planned content.
Every ingredient is invariant under permutations of the plan. -/
def planChar (pl : Plan) (fs : FS) (p : FPath) : Option Entry :=
  if p = [] then lookupFS fs p
  else
    match lookupFS fs p with
    | some e => some e
    | none =>
      if keyDirs pl p then some .dir
      else Option.map Entry.file (lookupPlan pl p)

theorem prefix_ne_length_lt (q p : FPath) (h : q <+: p) (hne : q ≠ p) :
    q.length < p.length := by
  rcases Nat.lt_or_ge q.length p.length with hl | hl
  · exact hl
  · exfalso
    apply hne
    have h1 := h.length_le
    have h2 : q.length = p.length := by omega
    rw [List.prefix_iff_eq_take.mp h, h2, List.take_length]

theorem prefix_dropLast_iff (q k : FPath) (hk : k ≠ []) :
    q <+: k.dropLast ↔ (q <+: k ∧ q ≠ k) := by
  have hkl : 0 < k.length := List.length_pos.mpr hk
  have hdl : k.dropLast = k.take (k.length - 1) := List.dropLast_eq_take k
  constructor
  · intro h
    have hdp : k.dropLast <+: k := by
      rw [hdl]
      exact List.take_prefix _ _
    refine ⟨h.trans hdp, ?_⟩
    intro hc
    subst hc
    have hle := h.length_le
    rw [hdl, List.length_take] at hle
    omega
  · rintro ⟨hpre, hne⟩
    have h1 := prefix_ne_length_lt q k hpre hne
    have h3 : q.length ≤ k.length - 1 := by omega
    have hq : q = k.take q.length := List.prefix_iff_eq_take.mp hpre
    have h4 : q = (k.take (k.length - 1)).take q.length := by
      rw [List.take_take, min_eq_left h3]
      exact hq
    rw [hdl, h4]
    exact List.take_prefix _ _

theorem mem_pathPrefixes (p q : FPath) :
    q ∈ pathPrefixes p ↔ (q ≠ [] ∧ q <+: p) := by
  unfold pathPrefixes
  simp only [List.mem_map, List.mem_range]
  constructor
  · rintro ⟨i, hi, rfl⟩
    refine ⟨?_, List.take_prefix _ _⟩
    have hlen : (p.take (i + 1)).length = i + 1 := by
      rw [List.length_take]
      omega
    intro hc
    rw [hc] at hlen
    simp at hlen
  · rintro ⟨hne, hpre⟩
    have h1 : q.length ≤ p.length := hpre.length_le
    have h2 : 1 ≤ q.length := List.length_pos.mpr hne
    refine ⟨q.length - 1, by omega, ?_⟩
    rw [Nat.sub_add_cancel h2]
    exact (List.prefix_iff_eq_take.mp hpre).symm

theorem existsFS_root (fs : FS) (h0 : lookupFS fs [] = none) :
    existsFS fs [] = true := by
  unfold existsFS
  have hres : resolvePath fs [] = some [] :=
    resolvePath_of_nonlink fs [] (by intro t; rw [h0]; simp)
  rw [hres]
  simp

theorem foldlM_mkdirSeg_char (l : List FPath) :
    ∀ (fs fs1 : FS), List.foldlM mkdirSeg fs l = some fs1 →
    ∀ x, lookupFS fs1 x =
      if x ∈ l ∧ lookupFS fs x = none then some .dir else lookupFS fs x := by
  induction l with
  | nil =>
    intro fs fs1 h x
    simp [List.foldlM] at h
    rw [← h]
    simp
  | cons q rest ih =>
    intro fs fs1 h x
    rw [List.foldlM_cons] at h
    cases hm : mkdirSeg fs q with
    | none => rw [hm] at h; exact absurd h (by simp)
    | some fsm =>
      rw [hm] at h
      simp only [Option.bind_eq_bind, Option.some_bind] at h
      have hx := ih fsm fs1 h x
      unfold mkdirSeg at hm
      cases hl : lookupFS fs q with
      | none =>
        rw [hl] at hm
        have hfsm : fsm = insertFS fs q .dir := by simpa using hm.symm
        rw [hfsm] at hx
        by_cases hxq : x = q
        · subst hxq
          rw [lookupFS_insertFS_self] at hx
          rw [hx, ite_self, if_pos ⟨List.mem_cons_self x rest, hl⟩]
        · rw [lookupFS_insertFS_ne fs q x .dir hxq] at hx
          rw [hx]
          by_cases hmem : x ∈ rest ∧ lookupFS fs x = none
          · rw [if_pos hmem, if_pos ⟨List.mem_cons_of_mem q hmem.1, hmem.2⟩]
          · have hng : ¬(x ∈ q :: rest ∧ lookupFS fs x = none) := by
              intro hc
              exact hmem ⟨(List.mem_cons.mp hc.1).resolve_left hxq, hc.2⟩
            rw [if_neg hmem, if_neg hng]
      | some e =>
        rw [hl] at hm
        cases e with
        | dir =>
          have hfsm : fsm = fs := by simpa using hm.symm
          rw [hfsm] at hx
          rw [hx]
          by_cases hmem : x ∈ rest ∧ lookupFS fs x = none
          · rw [if_pos hmem, if_pos ⟨List.mem_cons_of_mem q hmem.1, hmem.2⟩]
          · have hng : ¬(x ∈ q :: rest ∧ lookupFS fs x = none) := by
              intro hc
              rcases List.mem_cons.mp hc.1 with h2 | h2
              · rw [h2, hl] at hc
                exact absurd hc.2 (by simp)
              · exact hmem ⟨h2, hc.2⟩
            rw [if_neg hmem, if_neg hng]
        | file c0 => exact absurd hm (by simp)
        | link t => exact absurd hm (by simp)

theorem foldlM_mkdirSeg_pre (l : List FPath) :
    ∀ (fs fs1 : FS), List.foldlM mkdirSeg fs l = some fs1 →
    ∀ q ∈ l, lookupFS fs q = none ∨ lookupFS fs q = some .dir := by
  induction l with
  | nil => intro fs fs1 _ q hq; exact absurd hq (by simp)
  | cons q0 rest ih =>
    intro fs fs1 h q hq
    rw [List.foldlM_cons] at h
    cases hm : mkdirSeg fs q0 with
    | none => rw [hm] at h; exact absurd h (by simp)
    | some fsm =>
      rw [hm] at h
      simp only [Option.bind_eq_bind, Option.some_bind] at h
      rcases List.mem_cons.mp hq with rfl | hq2
      · unfold mkdirSeg at hm
        cases hl : lookupFS fs q with
        | none => exact Or.inl rfl
        | some e =>
          rw [hl] at hm
          cases e with
          | dir => exact Or.inr rfl
          | file c0 => exact absurd hm (by simp)
          | link t => exact absurd hm (by simp)
      · cases hl : lookupFS fs q with
        | none => exact Or.inl rfl
        | some e =>
          have hk := mkdirSeg_keeps fs fsm q0 q e hl hm
          rcases ih fsm fs1 h q hq2 with h2 | h2
          · rw [hk] at h2
            exact absurd h2 (by simp)
          · rw [hk] at h2
            have he : e = .dir := by injection h2
            rw [he]
            exact Or.inr rfl

theorem createDirAll_char (fs fs1 : FS) (p : FPath)
    (h : createDirAll fs p = some fs1) :
    ∀ x, lookupFS fs1 x =
      if x ∈ pathPrefixes p ∧ lookupFS fs x = none then some .dir
      else lookupFS fs x :=
  foldlM_mkdirSeg_char (pathPrefixes p) fs fs1 h

theorem createDirAll_pre (fs fs1 : FS) (p : FPath)
    (h : createDirAll fs p = some fs1) :
    ∀ q ∈ pathPrefixes p, lookupFS fs q = none ∨ lookupFS fs q = some .dir :=
  foldlM_mkdirSeg_pre (pathPrefixes p) fs fs1 h

theorem writeFS_fresh_char (k : FPath) (c : String) (fs : FS)
    (hnl : noLinksFS fs = true) (hkne : k ≠ []) (hknone : lookupFS fs k = none)
    (hdirp : isDirFS fs k.dropLast = true)
    (hppd : ∀ p, p ≠ [] → p <+: k → p ≠ k → lookupFS fs p = some .dir) :
    writeFS fs k c = some (insertFS fs k (.file c))
      ∧ (∀ p, lookupFS (insertFS fs k (.file c)) p = stepChar k c fs p) := by
  constructor
  · rw [writeFS_no_links fs hnl k c]
    have hdk : isDirFS fs k = false := by
      unfold isDirFS
      rw [hknone]
      simp [hkne]
    have hng : ¬ isDirFS fs k = true := by
      rw [hdk]
      exact Bool.false_ne_true
    rw [if_neg hng, if_pos hdirp]
  · intro p
    by_cases hpk : p = k
    · subst hpk
      rw [lookupFS_insertFS_self]
      unfold stepChar
      rw [if_neg (fun hc => hc.2.2.2 rfl), if_pos ⟨rfl, hkne, hknone⟩]
    · rw [lookupFS_insertFS_ne fs k p (.file c) hpk]
      unfold stepChar
      have hb1 : ¬(p ≠ [] ∧ lookupFS fs p = none ∧ p <+: k ∧ p ≠ k) := by
        intro hc
        have hd := hppd p hc.1 hc.2.2.1 hc.2.2.2
        rw [hd] at hc
        exact absurd hc.2.1 (by simp)
      have hb2 : ¬(p = k ∧ k ≠ [] ∧ lookupFS fs k = none) := fun hc => hpk hc.1
      rw [if_neg hb1, if_neg hb2]

theorem dump_step_ok (ov : Bool) (k : FPath) (c : String) (rest : Plan)
    (fs fsr : FS)
    (h0 : lookupFS fs [] = none)
    (hwf : WFfs fs) (hnl : noLinksFS fs = true)
    (hk : lookupFS fs k = none ∨ lookupFS fs k = some .dir)
    (hrun : dumpLoop ov fs ((k, c) :: rest) = (true, fsr)) :
    ∃ fs2, (∀ p, lookupFS fs2 p = stepChar k c fs p)
      ∧ dumpLoop ov fs2 rest = (true, fsr)
      ∧ noLinksFS fs2 = true
      ∧ (∀ q, q ≠ [] → q <+: k → q ≠ k →
          lookupFS fs q = none ∨ lookupFS fs q = some .dir) := by
  simp only [dumpLoop] at hrun
  split at hrun
  · simp at hrun
  · rename_i fsE hensE
    rcases hk with hknone | hkdir
    · by_cases hkne : k = []
      · subst hkne
        have hex0 : existsFS fs [] = true := existsFS_root fs h0
        have hfsE : fsE = fs := by
          unfold ensureParent at hensE
          rw [List.dropLast_nil, if_pos hex0] at hensE
          exact (Option.some.inj hensE).symm
        rw [hfsE] at hrun
        cases ov with
        | false =>
          rw [if_neg (show ¬((!existsFS fs [] || false) = true) by
            rw [hex0]; simp)] at hrun
          refine ⟨fs, ?_, hrun, hnl,
            fun q h1 h2 _ => absurd (List.prefix_nil.mp h2) h1⟩
          intro p
          unfold stepChar
          rw [if_neg (fun hc => hc.1 (List.prefix_nil.mp hc.2.2.1)),
            if_neg (fun hc => hc.2.1 rfl)]
        | true =>
          rw [if_pos (show (!existsFS fs [] || true) = true by simp)] at hrun
          have hw : writeFS fs [] c = none := by
            rw [writeFS_no_links fs hnl [] c]
            have hd0 : isDirFS fs [] = true := by unfold isDirFS; simp
            rw [if_pos hd0]
          rw [hw] at hrun
          simp at hrun
      · have hexkF : existsFS fs k = false := by
          rw [Bool.eq_false_iff]
          intro hc
          rcases (existsFS_no_links fs hnl k).mp hc with h | h
          · exact hkne h
          · rw [hknone] at h
            simp at h
        unfold ensureParent at hensE
        split at hensE
        · rename_i hexp
          have hfsE : fsE = fs := (Option.some.inj hensE).symm
          rw [hfsE] at hrun
          rcases (existsFS_no_links fs hnl k.dropLast).mp hexp with hp0 | hpS
          · have hppd : ∀ p, p ≠ [] → p <+: k → p ≠ k →
                lookupFS fs p = some .dir := by
              intro p hp1 hp2 hp3
              have hpp := (prefix_dropLast_iff p k hkne).mpr ⟨hp2, hp3⟩
              rw [hp0] at hpp
              exact absurd (List.prefix_nil.mp hpp) hp1
            have hdirp : isDirFS fs k.dropLast = true := by
              unfold isDirFS
              rw [hp0]
              simp
            obtain ⟨hwr, hcharW⟩ :=
              writeFS_fresh_char k c fs hnl hkne hknone hdirp hppd
            rw [if_pos (show (!existsFS fs k || ov) = true by
              rw [hexkF]; simp), hwr] at hrun
            exact ⟨insertFS fs k (.file c), hcharW, hrun,
              noLinksFS_insertFS fs k _ hnl (by simp),
              fun q h1 h2 h3 => Or.inr (hppd q h1 h2 h3)⟩
          · cases hple : lookupFS fs k.dropLast with
            | none =>
              rw [hple] at hpS
              simp at hpS
            | some e =>
              cases e with
              | dir =>
                have hppd : ∀ p, p ≠ [] → p <+: k → p ≠ k →
                    lookupFS fs p = some .dir := by
                  intro p hp1 hp2 hp3
                  have hpp := (prefix_dropLast_iff p k hkne).mpr ⟨hp2, hp3⟩
                  by_cases hpd : p = k.dropLast
                  · rw [hpd]
                    exact hple
                  · exact hwf k.dropLast .dir hple p hp1 hpp hpd
                have hdirp : isDirFS fs k.dropLast = true := by
                  unfold isDirFS
                  rw [hple]
                  simp
                obtain ⟨hwr, hcharW⟩ :=
                  writeFS_fresh_char k c fs hnl hkne hknone hdirp hppd
                rw [if_pos (show (!existsFS fs k || ov) = true by
                  rw [hexkF]; simp), hwr] at hrun
                exact ⟨insertFS fs k (.file c), hcharW, hrun,
                  noLinksFS_insertFS fs k _ hnl (by simp),
                  fun q h1 h2 h3 => Or.inr (hppd q h1 h2 h3)⟩
              | file c0 =>
                exfalso
                have hpne2 : k.dropLast ≠ [] := by
                  intro hc
                  rw [hc, h0] at hple
                  exact absurd hple (by simp)
                have hdirpF : isDirFS fs k.dropLast = false := by
                  unfold isDirFS
                  rw [hple]
                  simp [hpne2]
                have hw : writeFS fs k c = none := by
                  rw [writeFS_no_links fs hnl k c]
                  have hdk : isDirFS fs k = false := by
                    unfold isDirFS
                    rw [hknone]
                    simp [hkne]
                  rw [hdk, hdirpF]
                  simp
                rw [if_pos (show (!existsFS fs k || ov) = true by
                  rw [hexkF]; simp), hw] at hrun
                simp at hrun
              | link t =>
                exact absurd hple (noLinksFS_lookup fs hnl k.dropLast t)
        · rename_i hexp
          have hparent_ne : k.dropLast ≠ [] := by
            intro hc
            apply hexp
            rw [hc]
            exact existsFS_root fs h0
          have hcharE := createDirAll_char fs fsE k.dropLast hensE
          have hpreE := createDirAll_pre fs fsE k.dropLast hensE
          have hnlE : noLinksFS fsE = true :=
            createDirAll_no_links fs fsE k.dropLast hnl hensE
          have hkE : lookupFS fsE k = none := by
            rw [hcharE k]
            have hnm : k ∉ pathPrefixes k.dropLast := by
              intro hc
              have h2 := ((mem_pathPrefixes k.dropLast k).mp hc).2.length_le
              rw [List.length_dropLast] at h2
              have h3 : 0 < k.length := List.length_pos.mpr hkne
              omega
            rw [if_neg (fun hc => hnm hc.1)]
            exact hknone
          have hexkE : existsFS fsE k = false := by
            rw [Bool.eq_false_iff]
            intro hc
            rcases (existsFS_no_links fsE hnlE k).mp hc with h | h
            · exact hkne h
            · rw [hkE] at h
              simp at h
          have hnone_p : lookupFS fs k.dropLast = none := by
            cases hlp : lookupFS fs k.dropLast with
            | none => rfl
            | some e =>
              exfalso
              apply hexp
              rw [existsFS_no_links fs hnl k.dropLast]
              exact Or.inr (by rw [hlp]; rfl)
          have hdirpE : isDirFS fsE k.dropLast = true := by
            unfold isDirFS
            have hmem : k.dropLast ∈ pathPrefixes k.dropLast :=
              (mem_pathPrefixes k.dropLast k.dropLast).mpr
                ⟨hparent_ne, List.prefix_refl _⟩
            rw [hcharE k.dropLast, if_pos ⟨hmem, hnone_p⟩]
            simp
          have hdkE : isDirFS fsE k = false := by
            unfold isDirFS
            rw [hkE]
            simp [hkne]
          have hwr : writeFS fsE k c = some (insertFS fsE k (.file c)) := by
            rw [writeFS_no_links fsE hnlE k c]
            have hng : ¬ isDirFS fsE k = true := by
              rw [hdkE]
              exact Bool.false_ne_true
            rw [if_neg hng, if_pos hdirpE]
          rw [if_pos (show (!existsFS fsE k || ov) = true by
            rw [hexkE]; simp), hwr] at hrun
          refine ⟨insertFS fsE k (.file c), ?_, hrun,
            noLinksFS_insertFS fsE k _ hnlE (by simp), ?_⟩
          · intro p
            by_cases hpk : p = k
            · subst hpk
              rw [lookupFS_insertFS_self]
              unfold stepChar
              rw [if_neg (fun hc => hc.2.2.2 rfl), if_pos ⟨rfl, hkne, hknone⟩]
            · rw [lookupFS_insertFS_ne fsE k p (.file c) hpk, hcharE p]
              unfold stepChar
              by_cases hb1 : p ≠ [] ∧ lookupFS fs p = none ∧ p <+: k ∧ p ≠ k
              · rw [if_pos hb1,
                  if_pos ⟨(mem_pathPrefixes k.dropLast p).mpr
                    ⟨hb1.1, (prefix_dropLast_iff p k hkne).mpr
                      ⟨hb1.2.2.1, hb1.2.2.2⟩⟩, hb1.2.1⟩]
              · have hng2 : ¬(p ∈ pathPrefixes k.dropLast
                    ∧ lookupFS fs p = none) := by
                  intro hc
                  have hm2 := (mem_pathPrefixes k.dropLast p).mp hc.1
                  exact hb1 ⟨hm2.1, hc.2,
                    (prefix_dropLast_iff p k hkne).mp hm2.2⟩
                have hb2 : ¬(p = k ∧ k ≠ [] ∧ lookupFS fs k = none) :=
                  fun hc => hpk hc.1
                rw [if_neg hb1, if_neg hb2, if_neg hng2]
          · intro q h1 h2 h3
            exact hpreE q ((mem_pathPrefixes k.dropLast q).mpr
              ⟨h1, (prefix_dropLast_iff q k hkne).mpr ⟨h2, h3⟩⟩)
    · have hkne : k ≠ [] := by
        intro hc
        rw [hc, h0] at hkdir
        exact absurd hkdir (by simp)
      have hfsE : fsE = fs := by
        unfold ensureParent at hensE
        have hexP : existsFS fs k.dropLast = true := by
          by_cases hpd : k.dropLast = []
          · rw [hpd]
            exact existsFS_root fs h0
          · have hpfx := (prefix_dropLast_iff k.dropLast k hkne).mp
              (List.prefix_refl _)
            have hdir := hwf k .dir hkdir k.dropLast hpd hpfx.1 hpfx.2
            rw [existsFS_no_links fs hnl k.dropLast]
            exact Or.inr (by rw [hdir]; rfl)
        rw [if_pos hexP] at hensE
        exact (Option.some.inj hensE).symm
      rw [hfsE] at hrun
      have hexT : existsFS fs k = true := by
        rw [existsFS_no_links fs hnl k]
        exact Or.inr (by rw [hkdir]; rfl)
      cases ov with
      | false =>
        rw [if_neg (show ¬((!existsFS fs k || false) = true) by
          rw [hexT]; simp)] at hrun
        refine ⟨fs, ?_, hrun, hnl,
          fun q h1 h2 h3 => Or.inr (hwf k .dir hkdir q h1 h2 h3)⟩
        intro p
        unfold stepChar
        have hb1 : ¬(p ≠ [] ∧ lookupFS fs p = none ∧ p <+: k ∧ p ≠ k) := by
          intro hc
          have hd := hwf k .dir hkdir p hc.1 hc.2.2.1 hc.2.2.2
          rw [hd] at hc
          exact absurd hc.2.1 (by simp)
        have hb2 : ¬(p = k ∧ k ≠ [] ∧ lookupFS fs k = none) := by
          intro hc
          rw [hkdir] at hc
          exact absurd hc.2.2 (by simp)
        rw [if_neg hb1, if_neg hb2]
      | true =>
        rw [if_pos (show (!existsFS fs k || true) = true by simp)] at hrun
        have hw : writeFS fs k c = none := by
          rw [writeFS_no_links fs hnl k c]
          have hdk : isDirFS fs k = true := by
            unfold isDirFS
            rw [hkdir]
            simp
          rw [if_pos hdk]
        rw [hw] at hrun
        simp at hrun

theorem stepChar_WF (k : FPath) (c : String) (fs fs2 : FS)
    (hchar : ∀ p, lookupFS fs2 p = stepChar k c fs p)
    (hwf : WFfs fs) (h0 : lookupFS fs [] = none)
    (hpre : ∀ q, q ≠ [] → q <+: k → q ≠ k →
      lookupFS fs q = none ∨ lookupFS fs q = some .dir) :
    WFfs fs2 ∧ lookupFS fs2 [] = none := by
  constructor
  · intro p e hp q hqne hqp hqnep
    rw [hchar p] at hp
    rw [hchar q]
    unfold stepChar at hp ⊢
    split at hp
    · rename_i hcond
      obtain ⟨hpne, hpnone, hppk, hppnek⟩ := hcond
      have hqk : q <+: k := hqp.trans hppk
      have hqnek : q ≠ k := by
        intro hc
        have ha := prefix_ne_length_lt q p hqp hqnep
        have hb := prefix_ne_length_lt p k hppk hppnek
        rw [hc] at ha
        omega
      rcases hpre q hqne hqk hqnek with hq | hq
      · rw [if_pos ⟨hqne, hq, hqk, hqnek⟩]
      · have hb1 : ¬(q ≠ [] ∧ lookupFS fs q = none ∧ q <+: k ∧ q ≠ k) := by
          intro hc
          rw [hq] at hc
          exact absurd hc.2.1 (by simp)
        have hb2 : ¬(q = k ∧ k ≠ [] ∧ lookupFS fs k = none) :=
          fun hc => hqnek hc.1
        rw [if_neg hb1, if_neg hb2]
        exact hq
    · split at hp
      · rename_i hcond2
        obtain ⟨hpk, hkne, hknone⟩ := hcond2
        rw [hpk] at hqp hqnep
        rcases hpre q hqne hqp hqnep with hq | hq
        · rw [if_pos ⟨hqne, hq, hqp, hqnep⟩]
        · have hb1 : ¬(q ≠ [] ∧ lookupFS fs q = none ∧ q <+: k ∧ q ≠ k) := by
            intro hc
            rw [hq] at hc
            exact absurd hc.2.1 (by simp)
          have hb2 : ¬(q = k ∧ k ≠ [] ∧ lookupFS fs k = none) :=
            fun hc => hqnep hc.1
          rw [if_neg hb1, if_neg hb2]
          exact hq
      · have hdq := hwf p e hp q hqne hqp hqnep
        have hb1 : ¬(q ≠ [] ∧ lookupFS fs q = none ∧ q <+: k ∧ q ≠ k) := by
          intro hc
          rw [hdq] at hc
          exact absurd hc.2.1 (by simp)
        have hb2 : ¬(q = k ∧ k ≠ [] ∧ lookupFS fs k = none) := by
          intro hc
          rw [hc.1] at hdq
          exact absurd (hdq.symm.trans hc.2.2) (by simp)
        rw [if_neg hb1, if_neg hb2]
        exact hdq
  · rw [hchar []]
    unfold stepChar
    rw [if_neg (fun hc => hc.1 rfl)]
    by_cases hk0 : ([] : FPath) = k ∧ k ≠ [] ∧ lookupFS fs k = none
    · exact absurd hk0.1.symm hk0.2.1
    · rw [if_neg hk0]
      exact h0

theorem stepChar_keys (k : FPath) (c : String) (fs fs2 : FS) (rest : Plan)
    (hchar : ∀ p, lookupFS fs2 p = stepChar k c fs p)
    (hkeys : ∀ k2 ∈ ((k, c) :: rest).map Prod.fst,
      lookupFS fs k2 = none ∨ lookupFS fs k2 = some .dir)
    (hndk : k ∉ rest.map Prod.fst) :
    ∀ k2 ∈ rest.map Prod.fst,
      lookupFS fs2 k2 = none ∨ lookupFS fs2 k2 = some .dir := by
  intro k2 hk2
  rw [hchar k2]
  unfold stepChar
  by_cases hb1 : k2 ≠ [] ∧ lookupFS fs k2 = none ∧ k2 <+: k ∧ k2 ≠ k
  · rw [if_pos hb1]
    exact Or.inr rfl
  · have hb2 : ¬(k2 = k ∧ k ≠ [] ∧ lookupFS fs k = none) := by
      intro hc
      exact hndk (hc.1 ▸ hk2)
    rw [if_neg hb1, if_neg hb2]
    exact hkeys k2 (by rw [List.map_cons]; exact List.mem_cons_of_mem k hk2)

theorem keyDirs_cons (k : FPath) (c : String) (rest : Plan) (p : FPath) :
    keyDirs ((k, c) :: rest) p =
      (decide (p <+: k ∧ p ≠ k) || keyDirs rest p) := by
  unfold keyDirs
  rw [List.any_cons]

theorem dump_ok_no_file_pp (ov : Bool) (pl : Plan) : ∀ (fs fsr : FS),
    lookupFS fs [] = none → WFfs fs → noLinksFS fs = true →
    (∀ k2 ∈ pl.map Prod.fst,
      lookupFS fs k2 = none ∨ lookupFS fs k2 = some .dir) →
    (pl.map Prod.fst).Nodup →
    dumpLoop ov fs pl = (true, fsr) →
    ∀ (p : FPath) (c0 : String), lookupFS fs p = some (.file c0) →
    keyDirs pl p = false := by
  induction pl with
  | nil => intro fs fsr _ _ _ _ _ _ p c0 _; rfl
  | cons kv rest ih =>
    intro fs fsr h0 hwf hnl hkeys hnd hrun p c0 hp
    obtain ⟨k, c⟩ := kv
    have hk := hkeys k (by simp)
    obtain ⟨fs2, hchar, hrun2, hnl2, hpre⟩ :=
      dump_step_ok ov k c rest fs fsr h0 hwf hnl hk hrun
    obtain ⟨hwf2, h02⟩ := stepChar_WF k c fs fs2 hchar hwf h0 hpre
    have hnd2 : (rest.map Prod.fst).Nodup := by
      rw [List.map_cons] at hnd
      exact hnd.of_cons
    have hndk : k ∉ rest.map Prod.fst := by
      rw [List.map_cons, List.nodup_cons] at hnd
      exact hnd.1
    have hkeys2 := stepChar_keys k c fs fs2 rest hchar hkeys hndk
    have hpne : p ≠ [] := by
      intro hc
      rw [hc, h0] at hp
      exact absurd hp (by simp)
    have hppF : decide (p <+: k ∧ p ≠ k) = false := by
      rw [decide_eq_false_iff_not]
      intro hc
      rcases hpre p hpne hc.1 hc.2 with h | h
      · rw [hp] at h
        exact absurd h (by simp)
      · rw [hp] at h
        simp at h
    rw [keyDirs_cons, hppF, Bool.false_or]
    have hp2 : lookupFS fs2 p = some (.file c0) := by
      rw [hchar p]
      unfold stepChar
      have hb1 : ¬(p ≠ [] ∧ lookupFS fs p = none ∧ p <+: k ∧ p ≠ k) := by
        intro hc
        rw [hp] at hc
        exact absurd hc.2.1 (by simp)
      have hb2 : ¬(p = k ∧ k ≠ [] ∧ lookupFS fs k = none) := by
        intro hc
        rw [hc.1] at hp
        exact absurd (hp.symm.trans hc.2.2) (by simp)
      rw [if_neg hb1, if_neg hb2]
      exact hp
    exact ih fs2 fsr h02 hwf2 hnl2 hkeys2 hnd2 hrun2 p c0 hp2

theorem dump_ok_char (ov : Bool) (pl : Plan) : ∀ (fs fsr : FS),
    lookupFS fs [] = none → WFfs fs → noLinksFS fs = true →
    (∀ k2 ∈ pl.map Prod.fst,
      lookupFS fs k2 = none ∨ lookupFS fs k2 = some .dir) →
    (pl.map Prod.fst).Nodup →
    dumpLoop ov fs pl = (true, fsr) →
    ∀ p, lookupFS fsr p = planChar pl fs p := by
  induction pl with
  | nil =>
    intro fs fsr _ _ _ _ _ hrun p
    have hfs : fs = fsr := by
      have h2 := congrArg Prod.snd hrun
      simpa [dumpLoop] using h2
    subst hfs
    unfold planChar
    by_cases hp0 : p = []
    · rw [if_pos hp0]
    · rw [if_neg hp0]
      cases hl : lookupFS fs p with
      | some e => rfl
      | none => simp [keyDirs, lookupPlan]
  | cons kv rest ih =>
    intro fs fsr h0 hwf hnl hkeys hnd hrun p
    obtain ⟨k, c⟩ := kv
    have hk := hkeys k (by simp)
    obtain ⟨fs2, hchar, hrun2, hnl2, hpre⟩ :=
      dump_step_ok ov k c rest fs fsr h0 hwf hnl hk hrun
    obtain ⟨hwf2, h02⟩ := stepChar_WF k c fs fs2 hchar hwf h0 hpre
    have hnd2 : (rest.map Prod.fst).Nodup := by
      rw [List.map_cons] at hnd
      exact hnd.of_cons
    have hndk : k ∉ rest.map Prod.fst := by
      rw [List.map_cons, List.nodup_cons] at hnd
      exact hnd.1
    have hkeys2 := stepChar_keys k c fs fs2 rest hchar hkeys hndk
    have hcr := ih fs2 fsr h02 hwf2 hnl2 hkeys2 hnd2 hrun2 p
    rw [hcr]
    unfold planChar
    by_cases hp0 : p = []
    · rw [if_pos hp0, if_pos hp0, hp0, h02, h0]
    · rw [if_neg hp0, if_neg hp0]
      cases hl : lookupFS fs p with
      | some e =>
        have hl2 : lookupFS fs2 p = some e := by
          rw [hchar p]
          unfold stepChar
          have hb1 : ¬(p ≠ [] ∧ lookupFS fs p = none ∧ p <+: k ∧ p ≠ k) := by
            intro hc
            rw [hl] at hc
            exact absurd hc.2.1 (by simp)
          have hb2 : ¬(p = k ∧ k ≠ [] ∧ lookupFS fs k = none) := by
            intro hc
            rw [hc.1] at hl
            exact absurd (hl.symm.trans hc.2.2) (by simp)
          rw [if_neg hb1, if_neg hb2]
          exact hl
        rw [hl2]
      | none =>
        by_cases hpp : p <+: k ∧ p ≠ k
        · have hl2 : lookupFS fs2 p = some .dir := by
            rw [hchar p]
            unfold stepChar
            rw [if_pos ⟨hp0, hl, hpp.1, hpp.2⟩]
          rw [hl2]
          have hkd : keyDirs ((k, c) :: rest) p = true := by
            rw [keyDirs_cons, decide_eq_true hpp]
            rfl
          rw [hkd, if_pos rfl]
        · by_cases hpk : p = k
          · have hkne2 : k ≠ [] := by
              intro hc
              exact hp0 (hpk.trans hc)
            have hknone2 : lookupFS fs k = none := by
              rw [← hpk]
              exact hl
            have hl2 : lookupFS fs2 p = some (.file c) := by
              rw [hchar p]
              unfold stepChar
              have hb1 : ¬(p ≠ [] ∧ lookupFS fs p = none ∧ p <+: k ∧ p ≠ k) :=
                fun hc => hpp ⟨hc.2.2.1, hc.2.2.2⟩
              rw [if_neg hb1, if_pos ⟨hpk, hkne2, hknone2⟩]
            rw [hl2]
            have hkdr : keyDirs rest p = false :=
              dump_ok_no_file_pp ov rest fs2 fsr h02 hwf2 hnl2 hkeys2
                hnd2 hrun2 p c hl2
            have hkd : keyDirs ((k, c) :: rest) p = false := by
              rw [keyDirs_cons, decide_eq_false hpp, hkdr]
              rfl
            rw [hkd, if_neg Bool.false_ne_true,
              show lookupPlan ((k, c) :: rest) p = some c from if_pos hpk.symm]
            rfl
          · have hl2 : lookupFS fs2 p = none := by
              rw [hchar p]
              unfold stepChar
              have hb1 : ¬(p ≠ [] ∧ lookupFS fs p = none ∧ p <+: k ∧ p ≠ k) :=
                fun hc => hpp ⟨hc.2.2.1, hc.2.2.2⟩
              rw [if_neg hb1, if_neg (fun hc => hpk hc.1)]
              exact hl
            rw [hl2, keyDirs_cons, decide_eq_false hpp, Bool.false_or,
              show lookupPlan ((k, c) :: rest) p = lookupPlan rest p from
                if_neg (fun hc => hpk hc.symm)]

theorem keyDirs_eq_true_iff (pl : Plan) (p : FPath) :
    keyDirs pl p = true ↔ ∃ kv ∈ pl, p <+: kv.1 ∧ p ≠ kv.1 := by
  unfold keyDirs
  simp only [List.any_eq_true, decide_eq_true_eq]

theorem keyDirs_perm (pl1 pl2 : Plan) (hperm : pl1.Perm pl2) (p : FPath) :
    keyDirs pl1 p = keyDirs pl2 p := by
  cases h2 : keyDirs pl2 p with
  | true =>
    rw [keyDirs_eq_true_iff] at h2 ⊢
    obtain ⟨kv, hm, hkv⟩ := h2
    exact ⟨kv, hperm.mem_iff.mpr hm, hkv⟩
  | false =>
    rw [Bool.eq_false_iff]
    intro h1
    rw [keyDirs_eq_true_iff] at h1
    obtain ⟨kv, hm, hkv⟩ := h1
    have h3 : keyDirs pl2 p = true :=
      (keyDirs_eq_true_iff pl2 p).mpr ⟨kv, hperm.mem_iff.mp hm, hkv⟩
    rw [h2] at h3
    exact Bool.false_ne_true h3

theorem lookupPlan_some_iff (pl : Plan) :
    ∀ (p : FPath) (c : String), (pl.map Prod.fst).Nodup →
    (lookupPlan pl p = some c ↔ (p, c) ∈ pl) := by
  induction pl with
  | nil => intro p c _; simp [lookupPlan]
  | cons kv rest ih =>
    intro p c hnd
    obtain ⟨q, c0⟩ := kv
    rw [List.map_cons, List.nodup_cons] at hnd
    obtain ⟨hq, hndr⟩ := hnd
    by_cases hqp : q = p
    · subst hqp
      rw [show lookupPlan ((q, c0) :: rest) q = some c0 from if_pos rfl]
      constructor
      · intro h
        have hc : c0 = c := by injection h
        subst hc
        exact List.mem_cons_self _ _
      · intro hm
        rcases List.mem_cons.mp hm with he | he
        · have hc : c = c0 := congrArg Prod.snd he
          rw [hc]
        · exact absurd (List.mem_map_of_mem Prod.fst he) hq
    · rw [show lookupPlan ((q, c0) :: rest) p = lookupPlan rest p from
        if_neg hqp]
      rw [ih p c hndr]
      constructor
      · exact fun h => List.mem_cons_of_mem _ h
      · intro hm
        rcases List.mem_cons.mp hm with he | he
        · exact absurd (congrArg Prod.fst he).symm hqp
        · exact he

theorem lookupPlan_perm (pl1 pl2 : Plan) (hperm : pl1.Perm pl2)
    (hnd : (pl1.map Prod.fst).Nodup) (p : FPath) :
    lookupPlan pl1 p = lookupPlan pl2 p := by
  have hnd2 : (pl2.map Prod.fst).Nodup := (hperm.map Prod.fst).nodup hnd
  cases h1 : lookupPlan pl1 p with
  | some c =>
    have hm := lookupPlan_mem pl1 p c h1
    have hm2 : (p, c) ∈ pl2 := hperm.mem_iff.mp hm
    exact ((lookupPlan_some_iff pl2 p c hnd2).mpr hm2).symm
  | none =>
    rw [lookupPlan_none_iff] at h1
    symm
    rw [lookupPlan_none_iff]
    intro hc
    apply h1
    rw [List.mem_map] at hc ⊢
    obtain ⟨kv, hkv, hfst⟩ := hc
    exact ⟨kv, hperm.mem_iff.mpr hkv, hfst⟩

theorem renderExecOrd_ok_planLoop (r : Render) (entries : List TEntry)
    (fs0 fsr : FS) (reorder : Plan → Plan)
    (h : renderExecOrd r entries fs0 reorder = (.ok, fsr)) :
    ∃ fs1 plan, planLoop r entries fs0 [] = (.ok, fs1, plan) ∧
      afterPlan r fs1 (reorder plan) = (.ok, fsr) := by
  rcases hpl : planLoop r entries fs0 [] with ⟨o, fs1, plan⟩
  unfold renderExecOrd at h
  rw [hpl] at h
  cases o with
  | ok => exact ⟨fs1, plan, rfl, h⟩
  | templatingError => simp at h
  | conflict q => simp at h
  | panicked => simp at h

/-! ## C9 -/

def rC9x : Render := ⟨[Piece.lit "e"], [], false, false, []⟩

def tmplC9x : List TEntry :=
  [.file [[Piece.lit "e"], [Piece.lit "a"]] [Piece.lit "A"],
   .file [[Piece.lit "e"], [Piece.lit "a"], [Piece.lit "b"]] [Piece.lit "B"]]

/-- C9 counterexample: the iteration order of the `file_contents`
HashMap is observable.  The template plans a file at `e/a` and another
at `e/a/b`.  In insertion order the dump writes the file `e/a` first
and then panics (`create_dir_all(e/a)` hits the file), leaving a
partial tree; in the reversed order — a permutation of the same plan,
as a rehash may produce — the dump creates `e/a` as a directory first,
then silently skips the planned file `e/a` (it "exists"), and returns
Ok with a different tree.  So two runs over the same inputs into empty
destinations can differ in outcome and in the resulting tree. -/
theorem render_order_divergence :
    renderExecOrd rC9x tmplC9x [] id
      = (.panicked, [(["e", "a"], Entry.file "A"), (["e"], Entry.dir)])
    ∧ renderExecOrd rC9x tmplC9x [] List.reverse
      = (.ok, [(["e", "a", "b"], Entry.file "B"), (["e", "a"], Entry.dir),
          (["e"], Entry.dir)])
    ∧ (planLoop rC9x tmplC9x [] []).2.2
      = [((["e", "a"] : FPath), "A"), (["e", "a", "b"], "B")]
    ∧ (List.reverse [((["e", "a"] : FPath), "A"), (["e", "a", "b"], "B")]).Perm
        [((["e", "a"] : FPath), "A"), (["e", "a", "b"], "B")] :=
  ⟨by decide, by decide, by decide, List.reverse_perm _⟩

/-- C9 (amended): determinism holds only up to success.  For a
symlink-free template rendered into an empty destination under any two
iteration orders of the `file_contents` HashMap (modelled as arbitrary
permutations applied to the built plan), if both runs return Ok then
the two destination trees agree on every path.  (By
`render_order_divergence` the two runs need not agree on success
itself, so this conditional form is the most the code delivers.) -/
theorem render_identical_on_success
    (r : Render) (entries : List TEntry) (f g : Plan → Plan) (fsa fsb : FS)
    (hnl : noLinks entries = true)
    (hf : ∀ pl : Plan, (f pl).Perm pl) (hg : ∀ pl : Plan, (g pl).Perm pl)
    (ha : renderExecOrd r entries [] f = (.ok, fsa))
    (hb : renderExecOrd r entries [] g = (.ok, fsb)) :
    ∀ p, lookupFS fsa p = lookupFS fsb p := by
  obtain ⟨fs1, plan, hpl, hafter⟩ := renderExecOrd_ok_planLoop r entries [] fsa f ha
  obtain ⟨fs1b, planb, hplb, hafterb⟩ := renderExecOrd_ok_planLoop r entries [] fsb g hb
  rw [hpl] at hplb
  have hfs1b : fs1 = fs1b := congrArg (fun x => x.2.1) hplb
  have hplanb : plan = planb := congrArg (fun x => x.2.2) hplb
  subst hfs1b
  subst hplanb
  have hfs1 : fs1 = [] := by
    have h2 := planLoop_noLinks_fs r entries [] [] hnl
    rw [hpl] at h2
    exact h2
  subst hfs1
  have hda : dumpLoop r.overwrite_if_exists [] (f plan) = (true, fsa) :=
    afterPlan_ok_dump r [] (f plan) fsa hafter
  have hdb : dumpLoop r.overwrite_if_exists [] (g plan) = (true, fsb) :=
    afterPlan_ok_dump r [] (g plan) fsb hafterb
  have hnd : (plan.map Prod.fst).Nodup := by
    have h2 := planLoop_nodup r entries [] [] (by simp)
    rw [hpl] at h2
    exact h2
  have hnda : ((f plan).map Prod.fst).Nodup :=
    ((hf plan).map Prod.fst).symm.nodup hnd
  have hndb : ((g plan).map Prod.fst).Nodup :=
    ((hg plan).map Prod.fst).symm.nodup hnd
  have h0 : lookupFS ([] : FS) [] = none := rfl
  have hwf : WFfs ([] : FS) := by
    intro p e hp
    simp [lookupFS] at hp
  have hnlf : noLinksFS ([] : FS) = true := rfl
  have hca := dump_ok_char r.overwrite_if_exists (f plan) [] fsa h0 hwf hnlf
    (fun k2 _ => Or.inl rfl) hnda hda
  have hcb := dump_ok_char r.overwrite_if_exists (g plan) [] fsb h0 hwf hnlf
    (fun k2 _ => Or.inl rfl) hndb hdb
  intro p
  rw [hca p, hcb p]
  unfold planChar
  by_cases hp0 : p = []
  · rw [if_pos hp0, if_pos hp0]
  · rw [if_neg hp0, if_neg hp0,
      show lookupFS ([] : FS) p = none from rfl]
    have hkd : keyDirs (f plan) p = keyDirs (g plan) p := by
      rw [keyDirs_perm (f plan) plan (hf plan) p,
        keyDirs_perm (g plan) plan (hg plan) p]
    have hlp : lookupPlan (f plan) p = lookupPlan (g plan) p := by
      rw [lookupPlan_perm (f plan) plan (hf plan) hnda p,
        lookupPlan_perm (g plan) plan (hg plan) hndb p]
    rw [hkd, hlp]

def rC9 : Render :=
  ⟨[Piece.var "project"], [("project", "demo"), ("name", "alice")],
    false, false, []⟩

def tmplC9 : List TEntry :=
  [.file [[Piece.var "project"], [Piece.lit "README.md"]]
      [Piece.lit "# ", Piece.var "project"],
   .file [[Piece.var "project"], [Piece.lit "src"],
      [Piece.var "name", Piece.lit ".rs"]]
      [Piece.lit "by ", Piece.var "name"]]

def fsC9 : FS :=
  [(["demo", "src", "alice.rs"], .file "by alice"),
   (["demo", "src"], .dir),
   (["demo", "README.md"], .file "# demo"),
   (["demo"], .dir)]

def fsC9r : FS :=
  [(["demo", "README.md"], .file "# demo"),
   (["demo", "src", "alice.rs"], .file "by alice"),
   (["demo", "src"], .dir),
   (["demo"], .dir)]

/-- C9 witness: the end-to-end scenario of the spec rendered twice
into empty destinations, once in insertion order and once in reversed
order; both succeed and the trees agree (here checked at the rendered
`demo/README.md`, with the raw result lists differing in order). -/
theorem render_identical_on_success_witness :
    lookupFS fsC9 ["demo", "README.md"] = lookupFS fsC9r ["demo", "README.md"] :=
  render_identical_on_success rC9 tmplC9 id List.reverse fsC9 fsC9r
    (by decide) (fun pl => List.Perm.refl pl) (fun pl => List.reverse_perm pl)
    (by decide) (by decide) ["demo", "README.md"]

/-! ## C8 -/

def rC8x : Render := ⟨[Piece.lit "e"], [], true, false, []⟩

def fsC8x : FS :=
  [(["e"], .dir), (["e", "ln"], .link "tgt"), (["e", "tgt"], .file "OLD")]

/-- C8 counterexample: the destination holds a pre-existing symlink
`e/ln → tgt` at a planned path.  Under the Overwrite policy the render
completes, but `fs::write` follows the symlink: the pre-existing file
`e/tgt` — a path outside the plan — is overwritten with the rendered
content, while the planned path keeps its symlink.  So a completed
Overwrite render does not replace exactly the planned set. -/
theorem overwrite_writes_through_symlink_counterexample :
    renderExec rC8x [.file [[Piece.lit "e"], [Piece.lit "ln"]] [Piece.lit "NEW"]]
        fsC8x
      = (.ok,
         [(["e", "tgt"], Entry.file "NEW"), (["e"], Entry.dir),
          (["e", "ln"], Entry.link "tgt"), (["e", "tgt"], Entry.file "OLD")])
    ∧ lookupFS fsC8x ["e", "tgt"] = some (.file "OLD")
    ∧ lookupFS
        [(["e", "tgt"], Entry.file "NEW"), (["e"], Entry.dir),
         (["e", "ln"], Entry.link "tgt"), (["e", "tgt"], Entry.file "OLD")]
        ["e", "tgt"] = some (.file "NEW")
    ∧ lookupFS
        [(["e", "tgt"], Entry.file "NEW"), (["e"], Entry.dir),
         (["e", "ln"], Entry.link "tgt"), (["e", "tgt"], Entry.file "OLD")]
        ["e", "ln"] = some (.link "tgt") := by
  exact ⟨by decide, by decide, by decide, by decide⟩

/-- C8 amended (restricted to symlink-free templates and destinations,
as the counterexample forces): under the Overwrite policy, a completed
`render()` replaces exactly the files of the render plan — every
planned destination path holds its rendered content afterwards
(including paths that collided with pre-existing files), and every
pre-existing file at a path outside the plan is left unchanged. -/
theorem overwrite_replaces_exactly_plan
    (r : Render) (entries : List TEntry) (fs0 fs1 fsr : FS) (plan : Plan)
    (hov : r.overwrite_if_exists = true)
    (hnl : noLinks entries = true)
    (hnlf : noLinksFS fs0 = true)
    (hpl : planLoop r entries fs0 [] = (.ok, fs1, plan))
    (hrun : renderExec r entries fs0 = (.ok, fsr)) :
    (∀ (p : FPath) (c : String), lookupPlan plan p = some c →
      lookupFS fsr p = some (.file c))
    ∧ (∀ (p : FPath) (c0 : String), lookupFS fs0 p = some (.file c0) →
      p ∉ plan.map Prod.fst → lookupFS fsr p = some (.file c0)) := by
  rw [renderExec_of_planLoop_ok r entries fs0 fs1 plan hpl] at hrun
  have hdump := afterPlan_ok_dump r fs1 plan fsr hrun
  rw [hov] at hdump
  have hfs1 : fs1 = fs0 := by
    have := planLoop_noLinks_fs r entries fs0 [] hnl
    rw [hpl] at this
    exact this
  rw [hfs1] at hdump
  have hnd : (plan.map Prod.fst).Nodup := by
    have := planLoop_nodup r entries fs0 [] (by simp)
    rw [hpl] at this
    exact this
  constructor
  · intro p c hc
    exact dumpLoop_writes plan fs0 fsr hnlf hnd hdump p c (lookupPlan_mem plan p c hc)
  · intro p c0 h0 hnotin
    have hpres := dumpLoop_preserves_file true plan fs0 p c0 hnlf h0 hnotin
    rw [hdump] at hpres
    exact hpres

def rC8 : Render := ⟨[Piece.lit "e"], [], true, false, []⟩

def fsC8 : FS := [(["e"], .dir), (["e", "f"], .file "old"), (["e", "keep"], .file "K")]

def tmplC8 : List TEntry := [.file [[Piece.lit "e"], [Piece.lit "f"]] [Piece.lit "new"]]

def fsrC8 : FS :=
  [(["e", "f"], .file "new"), (["e"], .dir),
   (["e", "f"], .file "old"), (["e", "keep"], .file "K")]

/-- C8 amended witness: overwriting one colliding planned file replaces
it and leaves the non-colliding pre-existing file untouched. -/
theorem overwrite_replaces_exactly_plan_witness :
    lookupFS fsrC8 ["e", "f"] = some (.file "new")
    ∧ lookupFS fsrC8 ["e", "keep"] = some (.file "K") :=
  ⟨(overwrite_replaces_exactly_plan rC8 tmplC8 fsC8 fsC8 fsrC8
      [(["e", "f"], "new")] rfl (by decide) (by decide) (by decide) (by decide)).1
      ["e", "f"] "new" (by decide),
   (overwrite_replaces_exactly_plan rC8 tmplC8 fsC8 fsC8 fsrC8
      [(["e", "f"], "new")] rfl (by decide) (by decide) (by decide) (by decide)).2
      ["e", "keep"] "K" (by decide) (by decide)⟩

/-! ## C4 -/

/-- C4: for every symlink entry of the template, when `render()`
succeeds the destination holds, at the template-substituted relative
path, a symlink whose target string is the source symlink's target
verbatim — no substitution is applied to the target.  No other
operation of the render can displace it: directory creation and a
second symlink creation at that path fail (so the render would not
have succeeded), and `fs::write` follows the link rather than
replacing it. -/
theorem symlink_target_verbatim
    (r : Render) (pre post : List TEntry) (rel : List TStr) (target : String)
    (fs0 fsr : FS) (p : FPath)
    (hsub : substPath r.context rel = some p)
    (hrun : renderExec r (pre ++ .link rel target :: post) fs0 = (.ok, fsr)) :
    lookupFS fsr p = some (.link target) := by
  obtain ⟨fs1, plan, hpl, hap⟩ :=
    renderExec_ok_planLoop r (pre ++ .link rel target :: post) fs0 fsr hrun
  rcases hpre : planLoop r pre fs0 [] with ⟨o1, fsp, plp⟩
  cases o1 with
  | templatingError =>
    rw [planLoop_append_fail r pre (.link rel target :: post) fs0 []
      _ fsp plp hpre (by simp)] at hpl
    simp at hpl
  | conflict q =>
    have hnc := planLoop_not_conflict r pre fs0 [] q
    rw [hpre] at hnc
    exact absurd rfl hnc
  | panicked =>
    rw [planLoop_append_fail r pre (.link rel target :: post) fs0 []
      _ fsp plp hpre (by simp)] at hpl
    simp at hpl
  | ok =>
    rw [planLoop_append_ok r pre (.link rel target :: post) fs0 [] fsp plp hpre]
      at hpl
    rcases hstep : planStep r (.link rel target) fsp plp with ⟨o2, fs2, pl2⟩
    cases o2 with
    | templatingError =>
      rw [planLoop_cons_fail r _ post fsp plp _ fs2 pl2 hstep (by simp)] at hpl
      simp at hpl
    | conflict q =>
      exact absurd rfl (planStep_not_conflict r _ fsp plp _ fs2 pl2 q hstep)
    | panicked =>
      rw [planLoop_cons_fail r _ post fsp plp _ fs2 pl2 hstep (by simp)] at hpl
      simp at hpl
    | ok =>
      rw [planLoop_cons_ok r _ post fsp plp fs2 pl2 hstep] at hpl
      have hlink : lookupFS fs2 p = some (.link target) := by
        simp only [planStep, hsub] at hstep
        split at hstep
        · simp at hstep
        · rename_i fsq hens
          split at hstep
          · simp at hstep
          · rename_i fs3 hsym
            cases hstep
            rw [(symlinkFS_eq fsq fs2 target p (by assumption)).1]
            exact lookupFS_insertFS_self fsq p (.link target)
      have hpost := planLoop_keeps r post fs2 pl2 p (.link target) hlink
      rw [hpl] at hpost
      have hpost2 : lookupFS fs1 p = some (.link target) := hpost
      have hdump := afterPlan_ok_dump r fs1 plan fsr hap
      have hfin := dumpLoop_keeps_link r.overwrite_if_exists plan fs1 p
        target hpost2
      rw [hdump] at hfin
      exact hfin

def rC4 : Render := ⟨[Piece.lit "e"], [("y", "lnk")], false, false, []⟩

def fsrC4 : FS :=
  [(["e", "f"], .file "x"), (["e", "lnk"], .link "orig/target"), (["e"], .dir)]

/-- C4 witness: a symlink whose path contains a variable and whose
target is a literal string is recreated at the substituted path with
the unmodified target. -/
theorem symlink_target_verbatim_witness :
    lookupFS fsrC4 ["e", "lnk"] = some (.link "orig/target") :=
  symlink_target_verbatim rC4 []
    [.file [[Piece.lit "e"], [Piece.lit "f"]] [Piece.lit "x"]]
    [[Piece.lit "e"], [Piece.var "y"]] "orig/target" [] fsrC4 ["e", "lnk"]
    (by decide) (by decide)

end Petridish
